import Mathlib

/-!
# Verification of the elliptic-curve group core of `ECCDemo.py`

This file gives a shallow embedding of the Python source `src/ECCDemo.py`
(an ECC Diffie–Hellman demo over the brainpoolP192t1 curve) and proves the
specification claims about it.

Python integers are embedded as `Int`; the Python `%` operator with a
positive modulus agrees with `Int.emod`.  Points `[x, y]` are embedded as
`EPoint.affine x y`, and the sentinel `[None, None]` as `EPoint.identity`.
The fallible built-in `pow(u, -1, p)` (which raises `ValueError` when
`gcd(u mod p, p) ≠ 1`) is embedded by guarding on exactly that gcd
condition and otherwise returning the modular inverse, computed by
Fermat exponentiation `u^(p-2) mod p`; functions that can raise return
`Option`.
-/

set_option maxRecDepth 100000

namespace ECCDemo

/-- Fuelled modular exponentiation by squaring, used to express the modular
inverses that Python's `pow(u, -1, p)` computes.  The fuel bounds the number
of squarings; it is sufficient whenever `e < 2 ^ fuel`. -/
def powMod (m : Nat) : Nat → Nat → Nat → Nat
  | 0, _, _ => 1 % m
  | fuel + 1, bb, e =>
    if e = 0 then 1 % m
    else
      let r := powMod m fuel (bb * bb % m) (e / 2)
      if e % 2 = 1 then bb % m * r % m else r

theorem powMod_eq (m : Nat) (_hm : 0 < m) :
    ∀ fuel e bb, e < 2 ^ fuel → powMod m fuel bb e = bb ^ e % m := by
  intro fuel
  induction fuel with
  | zero =>
    intro e bb he
    interval_cases e
    simp [powMod]
  | succ f ih =>
    intro e bb he
    rcases Nat.eq_zero_or_pos e with rfl | hpos
    · simp [powMod]
    · have hlt : e / 2 < 2 ^ f := by
        have : e < 2 ^ f * 2 := by
          simpa [Nat.pow_succ] using he
        omega
      have hrec := ih (e / 2) (bb * bb % m) hlt
      have hsq : (bb * bb % m) ^ (e / 2) % m = (bb * bb) ^ (e / 2) % m := by
        conv_rhs => rw [Nat.pow_mod]
      have hbb : (bb * bb) ^ (e / 2) = bb ^ (2 * (e / 2)) := by
        rw [Nat.pow_mul]
        ring
      have hsplit : e = 2 * (e / 2) + e % 2 := (Nat.div_add_mod e 2).symm ▸ by omega
      rcases Nat.mod_two_eq_zero_or_one e with hpar | hpar
      · have hne : ¬ e = 0 := by omega
        have hodd : ¬ e % 2 = 1 := by omega
        have heq : 2 * (e / 2) = e := by omega
        simp only [powMod, if_neg hne, if_neg hodd]
        rw [hrec, hsq, hbb, heq]
      · have hne : ¬ e = 0 := by omega
        simp only [powMod, if_neg hne, if_pos hpar]
        rw [hrec, hsq, hbb]
        conv_rhs => rw [hsplit]
        rw [hpar, Nat.pow_add, Nat.pow_one]
        rw [Nat.mul_mod, Nat.mod_mod_of_dvd _ (dvd_refl m)]
        rw [← Nat.mul_mod]
        rw [Nat.mul_mod, Nat.mod_mod_of_dvd _ (dvd_refl m)]
        rw [← Nat.mul_mod, Nat.mul_comm (bb ^ (2 * (e / 2))) bb]

/-! ## The global curve parameters (`ECCDemo.py`, lines 67–71) -/

/-- The prime modulus `p` of brainpoolP192t1. -/
def p : Nat := 0xc302f41d932a36cda7a3463093d18db78fce476de1a86297

/-- The curve `a` parameter. -/
def a : Nat := 0xc302f41d932a36cda7a3463093d18db78fce476de1a86294

/-- The curve `b` parameter (unused by the group law, see claim C10). -/
def b : Nat := 0x13d56ffaec78681e68f9deb43b35bec2fb68542e27897b79

/-- The order `n` of the generator `G`. -/
def n : Nat := 0xc302f41d932a36cda7a3462f9e9e916b5be8f1029ac4acc1

/-- The x-coordinate of the generator `G`. -/
def Gx : Int := 0x3ae9e58c82f63c30282e1fe7bbf43fa72c446af6f4618129

/-- The y-coordinate of the generator `G`. -/
def Gy : Int := 0x097e2c5667c2223a902ab5ca449d0084b7e5b3de7ccc01c9

/-- A point of the Python source: either the sentinel `[None, None]`
(the point at infinity) or an integer pair `[x, y]`. -/
inductive EPoint where
  | identity : EPoint
  | affine (x y : Int) : EPoint
deriving DecidableEq, Repr

/-- The generator point `G` (line 70). -/
def Gpt : EPoint := .affine Gx Gy

/-- The modular inverse that Python's `pow(u, -1, p)` returns on success,
expressed by Fermat's little theorem (`p` is prime) as `u ^ (p - 2) mod p`.
Callers guard by the exact gcd test under which Python raises `ValueError`. -/
def pinv (u : Int) : Int :=
  (powMod p 192 (u % (p : ℤ)).toNat (p - 2) : Nat)

/-- Python's `pow(u, -1, p)` raises `ValueError` iff `gcd(u mod p, p) ≠ 1`. -/
def invertible (u : Int) : Prop := Nat.gcd (u % (p : ℤ)).toNat p = 1

instance (u : Int) : Decidable (invertible u) := by
  unfold invertible
  infer_instance

/-- `inv` (lines 75–78): pointwise negation.  `[x, -y % p]`. -/
def inv : EPoint → EPoint
  | .identity => .identity
  | .affine x y => .affine x ((-y) % (p : ℤ))

/-- `dbl` (lines 91–97): point doubling.  Returns `none` when the Python code
would raise `ValueError` in `pow(2*yP, -1, p)`. -/
def dbl : EPoint → Option EPoint
  | .identity => some .identity
  | .affine x y =>
    if y = 0 then some .identity
    else if ¬ invertible (2 * y) then none
    else
      let s : Int := (3 * ((x ^ 2) % (p : ℤ)) + (a : Int)) * pinv (2 * y)
      let xR : Int := ((s ^ 2) % (p : ℤ) - 2 * x) % (p : ℤ)
      some (.affine xR ((-y + s * (x - xR)) % (p : ℤ)))

/-- `add` (lines 80–89): the group law.  Returns `none` when the Python code
would raise `ValueError` in `pow(xP-xQ, -1, p)`. -/
def add (P Q : EPoint) : Option EPoint :=
  if P = Q then dbl P
  else
    match P, Q with
    | .identity, _ => some Q
    | _, .identity => some P
    | .affine xP yP, .affine xQ yQ =>
      if EPoint.affine xQ yQ = inv (.affine xP yP) then some .identity
      else if ¬ invertible (xP - xQ) then none
      else
        let s : Int := (yP - yQ) * pinv (xP - xQ)
        let xR : Int := ((s ^ 2) % (p : ℤ) - xP - xQ) % (p : ℤ)
        some (.affine xR ((-yP + s * (xP - xR)) % (p : ℤ)))

/-- The body of `mul`'s `while k:` loop (lines 104–109), with explicit fuel.
Each iteration conditionally adds the running point `N` into the accumulator
`R` and then doubles `N`; exceptions propagate as `none`.  The fuel is
sufficient whenever `k < 2 ^ fuel`. -/
def mulLoop (fuel : Nat) (N R : EPoint) (k : Nat) : Option EPoint :=
  match fuel with
  | 0 => some R
  | fuel + 1 =>
    if k = 0 then some R
    else
      Option.bind (if k % 2 = 1 then add R N else some R) fun R' =>
        Option.bind (dbl N) fun N' => mulLoop fuel N' R' (k / 2)

/-- `mul` (lines 102–110): double-and-add scalar multiplication. -/
def mul (P : EPoint) (k : Nat) : Option EPoint :=
  match P with
  | .identity => some P
  | _ => mulLoop (k + 1) P .identity k

/-- On-curve test for integer coordinates: `y² ≡ x³ + a·x + b (mod p)`. -/
def onCurve (x y : Int) : Prop :=
  (y ^ 2) % (p : ℤ) = (x ^ 3 + (a : Int) * x + (b : Int)) % (p : ℤ)

instance (x y : Int) : Decidable (onCurve x y) := by
  unfold onCurve
  infer_instance

/-- A valid point: the identity, or an on-curve affine point with canonical
coordinates in `[0, p)`. -/
def Valid : EPoint → Prop
  | .identity => True
  | .affine x y => 0 ≤ x ∧ x < p ∧ 0 ≤ y ∧ y < p ∧ onCurve x y

instance : (P : EPoint) → Decidable (Valid P)
  | .identity => by
    unfold Valid
    infer_instance
  | .affine x y => by
    unfold Valid
    infer_instance

/-- Coordinates in canonical range `[0, p)` (without the on-curve condition). -/
def InRange : EPoint → Prop
  | .identity => True
  | .affine x y => 0 ≤ x ∧ x < p ∧ 0 ≤ y ∧ y < p

instance : (P : EPoint) → Decidable (InRange P)
  | .identity => by
    unfold InRange
    infer_instance
  | .affine x y => by
    unfold InRange
    infer_instance

theorem Valid.inRange {P : EPoint} (h : Valid P) : InRange P := by
  cases P with
  | identity => trivial
  | affine x y => exact ⟨h.1, h.2.1, h.2.2.1, h.2.2.2.1⟩

/-! ## Primality of `p` and `n` via Pratt/Lucas certificates -/

theorem powMod_lt (m : Nat) (hm : 0 < m) :
    ∀ fuel bb e, powMod m fuel bb e < m := by
  intro fuel
  induction fuel with
  | zero =>
    intro bb e
    exact Nat.mod_lt _ hm
  | succ f ih =>
    intro bb e
    by_cases he : e = 0
    · simp only [powMod, if_pos he]
      exact Nat.mod_lt _ hm
    · by_cases hodd : e % 2 = 1
      · simp only [powMod, if_neg he, if_pos hodd]
        exact Nat.mod_lt _ hm
      · simp only [powMod, if_neg he, if_neg hodd]
        exact ih _ _

theorem zmod_pow_natCast (N aa e f r : ℕ) (h1 : 0 < N) (he : e < 2 ^ f)
    (hr : powMod N f aa e = r) : (aa : ZMod N) ^ e = (r : ZMod N) := by
  subst hr
  rw [powMod_eq N h1 f e aa he, ZMod.natCast_mod, Nat.cast_pow]

theorem lucasCert (N aa f : ℕ) (L : List ℕ) (h1 : 1 < N)
    (hf : N - 1 < 2 ^ f) (hL : L.prod = N - 1)
    (hLp : ∀ q ∈ L, Nat.Prime q)
    (ha : powMod N f aa (N - 1) = 1)
    (hd : ∀ q ∈ L, powMod N f aa ((N - 1) / q) ≠ 1) : Nat.Prime N := by
  have h0 : 0 < N := by omega
  apply lucas_primality N (aa : ZMod N)
  · have := zmod_pow_natCast N aa (N - 1) f 1 h0 hf ha
    simpa using this
  · intro q hq hdvd
    rw [← hL] at hdvd
    obtain ⟨x, hxL, hqx⟩ := (hq.prime.dvd_prod_iff).mp hdvd
    have hx : Nat.Prime x := hLp x hxL
    have hqex : q = x := (Nat.prime_dvd_prime_iff_eq hq hx).mp hqx
    subst hqex
    have hlt : (N - 1) / q < 2 ^ f := lt_of_le_of_lt (Nat.div_le_self _ _) hf
    rw [zmod_pow_natCast N aa ((N - 1) / q) f (powMod N f aa ((N - 1) / q)) h0 hlt rfl]
    intro hone
    apply hd q hxL
    have hv : powMod N f aa ((N - 1) / q) < N := powMod_lt N h0 f aa _
    haveI : NeZero N := ⟨by omega⟩
    haveI : Fact (1 < N) := ⟨h1⟩
    have hval := congrArg ZMod.val hone
    rw [ZMod.val_natCast_of_lt hv, ZMod.val_one] at hval
    exact hval

theorem pr_2 : Nat.Prime 2 := by norm_num

theorem pr_3 : Nat.Prime 3 := by norm_num

theorem pr_7 : Nat.Prime 7 := by norm_num

theorem pr_5 : Nat.Prime 5 := by norm_num

theorem pr_163 : Nat.Prime 163 := by norm_num

set_option maxHeartbeats 1000000 in
theorem pr_653 : Nat.Prime 653 :=
  lucasCert 653 2 10 [2, 2, 163]
    (by norm_num) (by decide) (by decide)
    (by
      intro q hq
      simp only [List.mem_cons, List.not_mem_nil, or_false] at hq
      rcases hq with rfl | rfl | rfl
      · exact pr_2
      · exact pr_2
      · exact pr_163)
    (by decide)
    (by decide)

theorem pr_173 : Nat.Prime 173 := by norm_num

theorem pr_313 : Nat.Prime 313 := by norm_num

set_option maxHeartbeats 1000000 in
theorem pr_26293 : Nat.Prime 26293 :=
  lucasCert 26293 6 15 [2, 2, 3, 7, 313]
    (by norm_num) (by decide) (by decide)
    (by
      intro q hq
      simp only [List.mem_cons, List.not_mem_nil, or_false] at hq
      rcases hq with rfl | rfl | rfl | rfl | rfl
      · exact pr_2
      · exact pr_2
      · exact pr_3
      · exact pr_7
      · exact pr_313)
    (by decide)
    (by decide)

set_option maxHeartbeats 1000000 in
theorem pr_327505609 : Nat.Prime 327505609 :=
  lucasCert 327505609 11 29 [2, 2, 2, 3, 3, 173, 26293]
    (by norm_num) (by decide) (by decide)
    (by
      intro q hq
      simp only [List.mem_cons, List.not_mem_nil, or_false] at hq
      rcases hq with rfl | rfl | rfl | rfl | rfl | rfl | rfl
      · exact pr_2
      · exact pr_2
      · exact pr_2
      · exact pr_3
      · exact pr_3
      · exact pr_173
      · exact pr_26293)
    (by decide)
    (by decide)

set_option maxHeartbeats 1000000 in
theorem pr_5132667904249 : Nat.Prime 5132667904249 :=
  lucasCert 5132667904249 11 43 [2, 2, 2, 3, 653, 327505609]
    (by norm_num) (by decide) (by decide)
    (by
      intro q hq
      simp only [List.mem_cons, List.not_mem_nil, or_false] at hq
      rcases hq with rfl | rfl | rfl | rfl | rfl | rfl
      · exact pr_2
      · exact pr_2
      · exact pr_2
      · exact pr_3
      · exact pr_653
      · exact pr_327505609)
    (by decide)
    (by decide)

set_option maxHeartbeats 1000000 in
theorem pr_51326679042491 : Nat.Prime 51326679042491 :=
  lucasCert 51326679042491 2 46 [2, 5, 5132667904249]
    (by norm_num) (by decide) (by decide)
    (by
      intro q hq
      simp only [List.mem_cons, List.not_mem_nil, or_false] at hq
      rcases hq with rfl | rfl | rfl
      · exact pr_2
      · exact pr_5
      · exact pr_5132667904249)
    (by decide)
    (by decide)

theorem pr_59 : Nat.Prime 59 := by norm_num

theorem pr_19 : Nat.Prime 19 := by norm_num

set_option maxHeartbeats 1000000 in
theorem pr_571 : Nat.Prime 571 :=
  lucasCert 571 3 10 [2, 3, 5, 19]
    (by norm_num) (by decide) (by decide)
    (by
      intro q hq
      simp only [List.mem_cons, List.not_mem_nil, or_false] at hq
      rcases hq with rfl | rfl | rfl | rfl
      · exact pr_2
      · exact pr_3
      · exact pr_5
      · exact pr_19)
    (by decide)
    (by decide)

theorem pr_97 : Nat.Prime 97 := by norm_num

theorem pr_37 : Nat.Prime 37 := by norm_num

set_option maxHeartbeats 1000000 in
theorem pr_1999 : Nat.Prime 1999 :=
  lucasCert 1999 3 11 [2, 3, 3, 3, 37]
    (by norm_num) (by decide) (by decide)
    (by
      intro q hq
      simp only [List.mem_cons, List.not_mem_nil, or_false] at hq
      rcases hq with rfl | rfl | rfl | rfl | rfl
      · exact pr_2
      · exact pr_3
      · exact pr_3
      · exact pr_3
      · exact pr_37)
    (by decide)
    (by decide)

theorem pr_139 : Nat.Prime 139 := by norm_num

set_option maxHeartbeats 1000000 in
theorem pr_42257 : Nat.Prime 42257 :=
  lucasCert 42257 3 16 [2, 2, 2, 2, 19, 139]
    (by norm_num) (by decide) (by decide)
    (by
      intro q hq
      simp only [List.mem_cons, List.not_mem_nil, or_false] at hq
      rcases hq with rfl | rfl | rfl | rfl | rfl | rfl
      · exact pr_2
      · exact pr_2
      · exact pr_2
      · exact pr_2
      · exact pr_19
      · exact pr_139)
    (by decide)
    (by decide)

set_option maxHeartbeats 1000000 in
theorem pr_16387518143 : Nat.Prime 16387518143 :=
  lucasCert 16387518143 5 34 [2, 97, 1999, 42257]
    (by norm_num) (by decide) (by decide)
    (by
      intro q hq
      simp only [List.mem_cons, List.not_mem_nil, or_false] at hq
      rcases hq with rfl | rfl | rfl | rfl
      · exact pr_2
      · exact pr_97
      · exact pr_1999
      · exact pr_42257)
    (by decide)
    (by decide)

theorem pr_11 : Nat.Prime 11 := by norm_num

theorem pr_41 : Nat.Prime 41 := by norm_num

theorem pr_83 : Nat.Prime 83 := by norm_num

theorem pr_13 : Nat.Prime 13 := by norm_num

theorem pr_23 : Nat.Prime 23 := by norm_num

set_option maxHeartbeats 1000000 in
theorem pr_2393 : Nat.Prime 2393 :=
  lucasCert 2393 3 12 [2, 2, 2, 13, 23]
    (by norm_num) (by decide) (by decide)
    (by
      intro q hq
      simp only [List.mem_cons, List.not_mem_nil, or_false] at hq
      rcases hq with rfl | rfl | rfl | rfl | rfl
      · exact pr_2
      · exact pr_2
      · exact pr_2
      · exact pr_13
      · exact pr_23)
    (by decide)
    (by decide)

theorem pr_73 : Nat.Prime 73 := by norm_num

theorem pr_233 : Nat.Prime 233 := by norm_num

set_option maxHeartbeats 1000000 in
theorem pr_4649 : Nat.Prime 4649 :=
  lucasCert 4649 3 13 [2, 2, 2, 7, 83]
    (by norm_num) (by decide) (by decide)
    (by
      intro q hq
      simp only [List.mem_cons, List.not_mem_nil, or_false] at hq
      rcases hq with rfl | rfl | rfl | rfl | rfl
      · exact pr_2
      · exact pr_2
      · exact pr_2
      · exact pr_7
      · exact pr_83)
    (by decide)
    (by decide)

set_option maxHeartbeats 1000000 in
theorem pr_210497226743 : Nat.Prime 210497226743 :=
  lucasCert 210497226743 5 38 [2, 11, 11, 11, 73, 233, 4649]
    (by norm_num) (by decide) (by decide)
    (by
      intro q hq
      simp only [List.mem_cons, List.not_mem_nil, or_false] at hq
      rcases hq with rfl | rfl | rfl | rfl | rfl | rfl | rfl
      · exact pr_2
      · exact pr_11
      · exact pr_11
      · exact pr_11
      · exact pr_73
      · exact pr_233
      · exact pr_4649)
    (by decide)
    (by decide)

set_option maxHeartbeats 1000000 in
theorem pr_4517359736728919033 : Nat.Prime 4517359736728919033 :=
  lucasCert 4517359736728919033 3 62 [2, 2, 2, 19, 59, 2393, 210497226743]
    (by norm_num) (by decide) (by decide)
    (by
      intro q hq
      simp only [List.mem_cons, List.not_mem_nil, or_false] at hq
      rcases hq with rfl | rfl | rfl | rfl | rfl | rfl | rfl
      · exact pr_2
      · exact pr_2
      · exact pr_2
      · exact pr_19
      · exact pr_59
      · exact pr_2393
      · exact pr_210497226743)
    (by decide)
    (by decide)

set_option maxHeartbeats 1000000 in
theorem pr_111604895836482593267110741 : Nat.Prime 111604895836482593267110741 :=
  lucasCert 111604895836482593267110741 2 87 [2, 2, 3, 5, 11, 11, 41, 83, 4517359736728919033]
    (by norm_num) (by decide) (by decide)
    (by
      intro q hq
      simp only [List.mem_cons, List.not_mem_nil, or_false] at hq
      rcases hq with rfl | rfl | rfl | rfl | rfl | rfl | rfl | rfl | rfl
      · exact pr_2
      · exact pr_2
      · exact pr_3
      · exact pr_5
      · exact pr_11
      · exact pr_11
      · exact pr_41
      · exact pr_83
      · exact pr_4517359736728919033)
    (by decide)
    (by decide)

set_option maxHeartbeats 1000000 in
theorem pr_2218130291019312052925190546351456293022253 : Nat.Prime 2218130291019312052925190546351456293022253 :=
  lucasCert 2218130291019312052925190546351456293022253 2 141 [2, 2, 3, 3, 59, 571, 16387518143, 111604895836482593267110741]
    (by norm_num) (by decide) (by decide)
    (by
      intro q hq
      simp only [List.mem_cons, List.not_mem_nil, or_false] at hq
      rcases hq with rfl | rfl | rfl | rfl | rfl | rfl | rfl | rfl
      · exact pr_2
      · exact pr_2
      · exact pr_3
      · exact pr_3
      · exact pr_59
      · exact pr_571
      · exact pr_16387518143
      · exact pr_111604895836482593267110741)
    (by decide)
    (by decide)

set_option maxHeartbeats 1000000 in
theorem pr_4781668983906166242955001894344923773259119655253013193367 : Nat.Prime 4781668983906166242955001894344923773259119655253013193367 :=
  lucasCert 4781668983906166242955001894344923773259119655253013193367 7 192 [2, 3, 7, 51326679042491, 2218130291019312052925190546351456293022253]
    (by norm_num) (by decide) (by decide)
    (by
      intro q hq
      simp only [List.mem_cons, List.not_mem_nil, or_false] at hq
      rcases hq with rfl | rfl | rfl | rfl | rfl
      · exact pr_2
      · exact pr_3
      · exact pr_7
      · exact pr_51326679042491
      · exact pr_2218130291019312052925190546351456293022253)
    (by decide)
    (by decide)

theorem pr_17 : Nat.Prime 17 := by norm_num

theorem pr_79 : Nat.Prime 79 := by norm_num

theorem pr_311 : Nat.Prime 311 := by norm_num

set_option maxHeartbeats 1000000 in
theorem pr_1867 : Nat.Prime 1867 :=
  lucasCert 1867 2 11 [2, 3, 311]
    (by norm_num) (by decide) (by decide)
    (by
      intro q hq
      simp only [List.mem_cons, List.not_mem_nil, or_false] at hq
      rcases hq with rfl | rfl | rfl
      · exact pr_2
      · exact pr_3
      · exact pr_311)
    (by decide)
    (by decide)

theorem pr_101 : Nat.Prime 101 := by norm_num

set_option maxHeartbeats 1000000 in
theorem pr_1213 : Nat.Prime 1213 :=
  lucasCert 1213 2 11 [2, 2, 3, 101]
    (by norm_num) (by decide) (by decide)
    (by
      intro q hq
      simp only [List.mem_cons, List.not_mem_nil, or_false] at hq
      rcases hq with rfl | rfl | rfl | rfl
      · exact pr_2
      · exact pr_2
      · exact pr_3
      · exact pr_101)
    (by decide)
    (by decide)

set_option maxHeartbeats 1000000 in
theorem pr_819989 : Nat.Prime 819989 :=
  lucasCert 819989 2 20 [2, 2, 13, 13, 1213]
    (by norm_num) (by decide) (by decide)
    (by
      intro q hq
      simp only [List.mem_cons, List.not_mem_nil, or_false] at hq
      rcases hq with rfl | rfl | rfl | rfl | rfl
      · exact pr_2
      · exact pr_2
      · exact pr_13
      · exact pr_13
      · exact pr_1213)
    (by decide)
    (by decide)

theorem pr_31 : Nat.Prime 31 := by norm_num

set_option maxHeartbeats 1000000 in
theorem pr_4093 : Nat.Prime 4093 :=
  lucasCert 4093 2 12 [2, 2, 3, 11, 31]
    (by norm_num) (by decide) (by decide)
    (by
      intro q hq
      simp only [List.mem_cons, List.not_mem_nil, or_false] at hq
      rcases hq with rfl | rfl | rfl | rfl | rfl
      · exact pr_2
      · exact pr_2
      · exact pr_3
      · exact pr_11
      · exact pr_31)
    (by decide)
    (by decide)

set_option maxHeartbeats 1000000 in
theorem pr_21391 : Nat.Prime 21391 :=
  lucasCert 21391 6 15 [2, 3, 5, 23, 31]
    (by norm_num) (by decide) (by decide)
    (by
      intro q hq
      simp only [List.mem_cons, List.not_mem_nil, or_false] at hq
      rcases hq with rfl | rfl | rfl | rfl | rfl
      · exact pr_2
      · exact pr_3
      · exact pr_5
      · exact pr_23
      · exact pr_31)
    (by decide)
    (by decide)

set_option maxHeartbeats 1000000 in
theorem pr_128347 : Nat.Prime 128347 :=
  lucasCert 128347 3 17 [2, 3, 21391]
    (by norm_num) (by decide) (by decide)
    (by
      intro q hq
      simp only [List.mem_cons, List.not_mem_nil, or_false] at hq
      rcases hq with rfl | rfl | rfl
      · exact pr_2
      · exact pr_3
      · exact pr_21391)
    (by decide)
    (by decide)

set_option maxHeartbeats 1000000 in
theorem pr_3151945627 : Nat.Prime 3151945627 :=
  lucasCert 3151945627 2 32 [2, 3, 4093, 128347]
    (by norm_num) (by decide) (by decide)
    (by
      intro q hq
      simp only [List.mem_cons, List.not_mem_nil, or_false] at hq
      rcases hq with rfl | rfl | rfl | rfl
      · exact pr_2
      · exact pr_3
      · exact pr_4093
      · exact pr_128347)
    (by decide)
    (by decide)

set_option maxHeartbeats 1000000 in
theorem pr_15507364456428619 : Nat.Prime 15507364456428619 :=
  lucasCert 15507364456428619 2 54 [2, 3, 819989, 3151945627]
    (by norm_num) (by decide) (by decide)
    (by
      intro q hq
      simp only [List.mem_cons, List.not_mem_nil, or_false] at hq
      rcases hq with rfl | rfl | rfl | rfl
      · exact pr_2
      · exact pr_3
      · exact pr_819989
      · exact pr_3151945627)
    (by decide)
    (by decide)

set_option maxHeartbeats 1000000 in
theorem pr_13609004849343556497893651 : Nat.Prime 13609004849343556497893651 :=
  lucasCert 13609004849343556497893651 2 84 [2, 5, 5, 7, 17, 79, 1867, 15507364456428619]
    (by norm_num) (by decide) (by decide)
    (by
      intro q hq
      simp only [List.mem_cons, List.not_mem_nil, or_false] at hq
      rcases hq with rfl | rfl | rfl | rfl | rfl | rfl | rfl | rfl
      · exact pr_2
      · exact pr_5
      · exact pr_5
      · exact pr_7
      · exact pr_17
      · exact pr_79
      · exact pr_1867
      · exact pr_15507364456428619)
    (by decide)
    (by decide)

theorem pr_29 : Nat.Prime 29 := by norm_num

set_option maxHeartbeats 1000000 in
theorem pr_1103 : Nat.Prime 1103 :=
  lucasCert 1103 5 11 [2, 19, 29]
    (by norm_num) (by decide) (by decide)
    (by
      intro q hq
      simp only [List.mem_cons, List.not_mem_nil, or_false] at hq
      rcases hq with rfl | rfl | rfl
      · exact pr_2
      · exact pr_19
      · exact pr_29)
    (by decide)
    (by decide)

set_option maxHeartbeats 1000000 in
theorem pr_971 : Nat.Prime 971 :=
  lucasCert 971 6 10 [2, 5, 97]
    (by norm_num) (by decide) (by decide)
    (by
      intro q hq
      simp only [List.mem_cons, List.not_mem_nil, or_false] at hq
      rcases hq with rfl | rfl | rfl
      · exact pr_2
      · exact pr_5
      · exact pr_97)
    (by decide)
    (by decide)

set_option maxHeartbeats 1000000 in
theorem pr_5827 : Nat.Prime 5827 :=
  lucasCert 5827 2 13 [2, 3, 971]
    (by norm_num) (by decide) (by decide)
    (by
      intro q hq
      simp only [List.mem_cons, List.not_mem_nil, or_false] at hq
      rcases hq with rfl | rfl | rfl
      · exact pr_2
      · exact pr_3
      · exact pr_971)
    (by decide)
    (by decide)

set_option maxHeartbeats 1000000 in
theorem pr_2423 : Nat.Prime 2423 :=
  lucasCert 2423 5 12 [2, 7, 173]
    (by norm_num) (by decide) (by decide)
    (by
      intro q hq
      simp only [List.mem_cons, List.not_mem_nil, or_false] at hq
      rcases hq with rfl | rfl | rfl
      · exact pr_2
      · exact pr_7
      · exact pr_173)
    (by decide)
    (by decide)

set_option maxHeartbeats 1000000 in
theorem pr_29077 : Nat.Prime 29077 :=
  lucasCert 29077 2 15 [2, 2, 3, 2423]
    (by norm_num) (by decide) (by decide)
    (by
      intro q hq
      simp only [List.mem_cons, List.not_mem_nil, or_false] at hq
      rcases hq with rfl | rfl | rfl | rfl
      · exact pr_2
      · exact pr_2
      · exact pr_3
      · exact pr_2423)
    (by decide)
    (by decide)

set_option maxHeartbeats 1000000 in
theorem pr_3140317 : Nat.Prime 3140317 :=
  lucasCert 3140317 2 22 [2, 2, 3, 3, 3, 29077]
    (by norm_num) (by decide) (by decide)
    (by
      intro q hq
      simp only [List.mem_cons, List.not_mem_nil, or_false] at hq
      rcases hq with rfl | rfl | rfl | rfl | rfl | rfl
      · exact pr_2
      · exact pr_2
      · exact pr_3
      · exact pr_3
      · exact pr_3
      · exact pr_29077)
    (by decide)
    (by decide)

theorem pr_71 : Nat.Prime 71 := by norm_num

theorem pr_103 : Nat.Prime 103 := by norm_num

set_option maxHeartbeats 1000000 in
theorem pr_1031 : Nat.Prime 1031 :=
  lucasCert 1031 14 11 [2, 5, 103]
    (by norm_num) (by decide) (by decide)
    (by
      intro q hq
      simp only [List.mem_cons, List.not_mem_nil, or_false] at hq
      rcases hq with rfl | rfl | rfl
      · exact pr_2
      · exact pr_5
      · exact pr_103)
    (by decide)
    (by decide)

set_option maxHeartbeats 1000000 in
theorem pr_7536774961 : Nat.Prime 7536774961 :=
  lucasCert 7536774961 17 33 [2, 2, 2, 2, 3, 3, 5, 11, 13, 71, 1031]
    (by norm_num) (by decide) (by decide)
    (by
      intro q hq
      simp only [List.mem_cons, List.not_mem_nil, or_false] at hq
      rcases hq with rfl | rfl | rfl | rfl | rfl | rfl | rfl | rfl | rfl | rfl | rfl
      · exact pr_2
      · exact pr_2
      · exact pr_2
      · exact pr_2
      · exact pr_3
      · exact pr_3
      · exact pr_5
      · exact pr_11
      · exact pr_13
      · exact pr_71
      · exact pr_1031)
    (by decide)
    (by decide)

set_option maxHeartbeats 1000000 in
theorem pr_107647262337333555283688982427 : Nat.Prime 107647262337333555283688982427 :=
  lucasCert 107647262337333555283688982427 2 97 [2, 3, 7, 7, 29, 83, 1103, 5827, 3140317, 7536774961]
    (by norm_num) (by decide) (by decide)
    (by
      intro q hq
      simp only [List.mem_cons, List.not_mem_nil, or_false] at hq
      rcases hq with rfl | rfl | rfl | rfl | rfl | rfl | rfl | rfl | rfl | rfl
      · exact pr_2
      · exact pr_3
      · exact pr_7
      · exact pr_7
      · exact pr_29
      · exact pr_83
      · exact pr_1103
      · exact pr_5827
      · exact pr_3140317
      · exact pr_7536774961)
    (by decide)
    (by decide)

set_option maxHeartbeats 1000000 in
theorem pr_4781668983906166242955001894269038308119863659119834868929 : Nat.Prime 4781668983906166242955001894269038308119863659119834868929 :=
  lucasCert 4781668983906166242955001894269038308119863659119834868929 7 192 [2, 2, 2, 2, 2, 2, 3, 17, 13609004849343556497893651, 107647262337333555283688982427]
    (by norm_num) (by decide) (by decide)
    (by
      intro q hq
      simp only [List.mem_cons, List.not_mem_nil, or_false] at hq
      rcases hq with rfl | rfl | rfl | rfl | rfl | rfl | rfl | rfl | rfl | rfl
      · exact pr_2
      · exact pr_2
      · exact pr_2
      · exact pr_2
      · exact pr_2
      · exact pr_2
      · exact pr_3
      · exact pr_17
      · exact pr_13609004849343556497893651
      · exact pr_107647262337333555283688982427)
    (by decide)
    (by decide)


theorem p_prime : Nat.Prime p :=
  pr_4781668983906166242955001894344923773259119655253013193367

theorem n_prime : Nat.Prime n :=
  pr_4781668983906166242955001894269038308119863659119834868929

/-! ## The field `F = ZMod p` and cast lemmas -/

instance fact_p_prime : Fact (Nat.Prime p) := ⟨p_prime⟩

/-- The prime field underlying the curve. -/
abbrev F : Type := ZMod p

theorem p_pos : 0 < p := by decide

theorem p_int_pos : (0 : ℤ) < (p : ℤ) := by
  exact_mod_cast p_pos

/-- Casting an integer's canonical residue to `F` equals casting the integer. -/
theorem intCast_emod_p (x : ℤ) : ((x % (p : ℤ) : ℤ) : F) = (x : F) := by
  rw [ZMod.intCast_eq_intCast_iff']
  exact Int.emod_emod_of_dvd x dvd_rfl

/-- Integers in `[0, p)` cast injectively into `F`. -/
theorem intCast_inj_range {x y : ℤ} (hx0 : 0 ≤ x) (hxp : x < p) (hy0 : 0 ≤ y)
    (hyp : y < p) (h : (x : F) = (y : F)) : x = y := by
  rw [ZMod.intCast_eq_intCast_iff'] at h
  rwa [Int.emod_eq_of_lt hx0 hxp, Int.emod_eq_of_lt hy0 hyp] at h

/-- An integer casts to `0` in `F` iff `p` divides it. -/
theorem intCast_eq_zero_iff (x : ℤ) : (x : F) = 0 ↔ (p : ℤ) ∣ x :=
  ZMod.intCast_zmod_eq_zero_iff_dvd x p

/-- The Python invertibility test `gcd(u mod p, p) == 1` holds iff `u` is
nonzero in `F`. -/
theorem invertible_iff (u : ℤ) : invertible u ↔ (u : F) ≠ 0 := by
  unfold invertible
  simp only [ne_eq, intCast_eq_zero_iff]
  have hpp := p_int_pos
  have hnn : 0 ≤ u % (p : ℤ) := Int.emod_nonneg u (by omega)
  have hlt : u % (p : ℤ) < (p : ℤ) := Int.emod_lt_of_pos u hpp
  have hmz : ((u % (p : ℤ)).toNat : ℤ) = u % (p : ℤ) := Int.toNat_of_nonneg hnn
  have hdvd_iff : (p : ℤ) ∣ u ↔ (u % (p : ℤ)).toNat = 0 := by
    constructor
    · intro h
      have h0 : u % (p : ℤ) = 0 := Int.emod_eq_zero_of_dvd h
      rw [h0]
      rfl
    · intro h
      apply Int.dvd_of_emod_eq_zero
      show u % (p : ℤ) = 0
      rw [← hmz, h]
      rfl
  constructor
  · intro hg hdvd
    rw [hdvd_iff] at hdvd
    rw [hdvd, Nat.gcd_zero_left] at hg
    exact absurd hg (Nat.Prime.ne_one p_prime)
  · intro hnd
    rw [hdvd_iff] at hnd
    have hmpos : 0 < (u % (p : ℤ)).toNat := Nat.pos_of_ne_zero hnd
    have hmlt : (u % (p : ℤ)).toNat < p := by omega
    have hndvd : ¬ p ∣ (u % (p : ℤ)).toNat := fun hdv =>
      absurd (Nat.le_of_dvd hmpos hdv) (by omega)
    have hco : Nat.Coprime p (u % (p : ℤ)).toNat :=
      (Nat.Prime.coprime_iff_not_dvd p_prime).mpr hndvd
    exact Nat.Coprime.symm hco

theorem p_sub2_lt : p - 2 < 2 ^ 192 := by decide

/-- The value returned by the embedded `pow(u, -1, p)` casts to the field
inverse of `u` in `F`. -/
theorem pinv_cast (u : ℤ) : ((pinv u : ℤ) : F) = (u : F)⁻¹ := by
  unfold pinv
  have hnn : 0 ≤ u % (p : ℤ) := Int.emod_nonneg u (by
    have := p_int_pos
    omega)
  have h1 : ((powMod p 192 (u % (p : ℤ)).toNat (p - 2) : ℕ) : F) =
      (((u % (p : ℤ)).toNat : ℕ) : F) ^ (p - 2) :=
    (zmod_pow_natCast p (u % (p : ℤ)).toNat (p - 2) 192 _ p_pos p_sub2_lt rfl).symm
  have h2 : (((u % (p : ℤ)).toNat : ℕ) : F) = (u : F) := by
    have : (((u % (p : ℤ)).toNat : ℕ) : ℤ) = u % (p : ℤ) := Int.toNat_of_nonneg hnn
    calc (((u % (p : ℤ)).toNat : ℕ) : F)
        = (((((u % (p : ℤ)).toNat : ℕ) : ℤ)) : F) := by push_cast; rfl
      _ = ((u % (p : ℤ) : ℤ) : F) := by rw [this]
      _ = (u : F) := intCast_emod_p u
  rw [Int.cast_natCast, h1, h2]
  by_cases hu : (u : F) = 0
  · rw [hu, inv_zero]
    exact zero_pow (by decide)
  · have hfe : (u : F) ^ (p - 1) = 1 := ZMod.pow_card_sub_one_eq_one hu
    have hsplit : p - 1 = (p - 2) + 1 := by decide
    rw [hsplit, pow_succ] at hfe
    exact eq_inv_of_mul_eq_one_left hfe

/-! ## The Weierstrass curve over `F` and the nonsingularity of its points -/

/-- The short Weierstrass curve `y² = x³ + a·x + b` over `F`. -/
def W : WeierstrassCurve.Affine F :=
  { a₁ := 0, a₂ := 0, a₃ := 0, a₄ := (a : F), a₆ := (b : F) }

theorem W_delta : W.Δ = -(((64 * a ^ 3 + 432 * b ^ 2 : ℕ) : F)) := by
  simp only [WeierstrassCurve.Δ, WeierstrassCurve.b₂, WeierstrassCurve.b₄,
    WeierstrassCurve.b₆, WeierstrassCurve.b₈, W]
  push_cast
  ring

theorem W_delta_ne_zero : W.Δ ≠ 0 := by
  rw [W_delta, neg_ne_zero, Ne, ZMod.natCast_zmod_eq_zero_iff_dvd,
    Nat.dvd_iff_mod_eq_zero]
  decide

/-- The Weierstrass equation of `W` at integer casts is the Python on-curve
congruence. -/
theorem equation_iff_onCurve (x y : ℤ) :
    W.Equation (x : F) (y : F) ↔ onCurve x y := by
  rw [WeierstrassCurve.Affine.equation_iff]
  unfold onCurve
  show ((y : F) ^ 2 + W.a₁ * (x : F) * (y : F) + W.a₃ * (y : F) = _) ↔ _
  simp only [W]
  rw [← ZMod.intCast_eq_intCast_iff']
  push_cast
  constructor
  · intro h
    linear_combination h
  · intro h
    linear_combination h

/-- Any on-curve point with integer coordinates is a nonsingular point of `W`. -/
theorem nonsingular_of_onCurve {x y : ℤ} (h : onCurve x y) :
    W.Nonsingular (x : F) (y : F) :=
  W.nonsingular_of_Δ_ne_zero ((equation_iff_onCurve x y).mpr h) W_delta_ne_zero

/-! ## Representation of Python points by nonsingular rational points of `W` -/

/-- `Rep P A` relates a Python point `P` in canonical form (coordinates in
`[0, p)`) with the nonsingular rational point `A` of `W` it denotes. -/
inductive Rep : EPoint → W.Point → Prop where
  | ident : Rep .identity 0
  | aff (x y : ℤ) (hx0 : 0 ≤ x) (hxp : x < p) (hy0 : 0 ≤ y) (hyp : y < p)
      (h : W.Nonsingular (x : F) (y : F)) :
      Rep (.affine x y) (WeierstrassCurve.Affine.Point.some h)

theorem some_eq_some {x₁ y₁ x₂ y₂ : F} (h₁ : W.Nonsingular x₁ y₁)
    (h₂ : W.Nonsingular x₂ y₂) (hx : x₁ = x₂) (hy : y₁ = y₂) :
    WeierstrassCurve.Affine.Point.some h₁ = WeierstrassCurve.Affine.Point.some h₂ := by
  subst hx
  subst hy
  rfl

theorem rep_of_valid {P : EPoint} (h : Valid P) : ∃ A, Rep P A := by
  cases P with
  | identity => exact ⟨0, .ident⟩
  | affine x y =>
    obtain ⟨hx0, hxp, hy0, hyp, hc⟩ := h
    exact ⟨_, .aff x y hx0 hxp hy0 hyp (nonsingular_of_onCurve hc)⟩

theorem Rep.valid {P : EPoint} {A : W.Point} (h : Rep P A) : Valid P := by
  cases h with
  | ident => trivial
  | aff x y hx0 hxp hy0 hyp h =>
    exact ⟨hx0, hxp, hy0, hyp, (equation_iff_onCurve x y).mp h.1⟩

/-- `Rep` is right-unique: a Python point denotes at most one curve point. -/
theorem Rep.det {P : EPoint} {A B : W.Point} (hA : Rep P A) (hB : Rep P B) :
    A = B := by
  cases hA with
  | ident => cases hB with | ident => rfl
  | aff x y hx0 hxp hy0 hyp h =>
    cases hB with
    | aff _ _ _ _ _ _ h' => rfl

theorem Rep.affine_elim {x y : ℤ} {A : W.Point} (h : Rep (.affine x y) A) :
    0 ≤ x ∧ x < p ∧ 0 ≤ y ∧ y < p ∧
      ∃ hns : W.Nonsingular (x : F) (y : F),
        A = WeierstrassCurve.Affine.Point.some hns := by
  cases h with
  | aff _ _ hx0 hxp hy0 hyp hns => exact ⟨hx0, hxp, hy0, hyp, hns, rfl⟩

theorem Rep.ident_elim {A : W.Point} (h : Rep .identity A) : A = 0 := by
  cases h with
  | ident => rfl

/-- `Rep` is left-unique: canonical coordinates make the representation of a
curve point unique. -/
theorem Rep.inj {P Q : EPoint} {A : W.Point} (hP : Rep P A) (hQ : Rep Q A) :
    P = Q := by
  cases P with
  | identity =>
    have hA := Rep.ident_elim hP
    cases Q with
    | identity => rfl
    | affine x' y' =>
      obtain ⟨_, _, _, _, hns, hA'⟩ := Rep.affine_elim hQ
      rw [hA] at hA'
      exact absurd hA'.symm (WeierstrassCurve.Affine.Point.some_ne_zero hns)
  | affine x y =>
    obtain ⟨hx0, hxp, hy0, hyp, hns, hA⟩ := Rep.affine_elim hP
    cases Q with
    | identity =>
      have hA' := Rep.ident_elim hQ
      rw [hA'] at hA
      exact absurd hA.symm (WeierstrassCurve.Affine.Point.some_ne_zero hns)
    | affine x' y' =>
      obtain ⟨hx0', hxp', hy0', hyp', hns', hA'⟩ := Rep.affine_elim hQ
      rw [hA] at hA'
      injection hA' with hfx hfy
      have hxx : x = x' := intCast_inj_range hx0 hxp hx0' hxp' hfx
      have hyy : y = y' := intCast_inj_range hy0 hyp hy0' hyp' hfy
      rw [hxx, hyy]

/-! ## The group-law bridge: `dbl` and `add` compute the Mathlib group law -/

theorem mod_nonneg' (z : ℤ) : 0 ≤ z % (p : ℤ) :=
  Int.emod_nonneg z (by
    have := p_int_pos
    omega)

theorem mod_lt' (z : ℤ) : z % (p : ℤ) < (p : ℤ) :=
  Int.emod_lt_of_pos z p_int_pos

theorem F_two_ne_zero : (2 : F) ≠ 0 := by
  have h2 : ((2 : ℕ) : F) ≠ 0 := by
    rw [Ne, ZMod.natCast_zmod_eq_zero_iff_dvd, Nat.dvd_iff_mod_eq_zero]
    decide
  simpa using h2

theorem cast_ne_zero_of_range {y : ℤ} (hy0 : 0 ≤ y) (hyp : y < p) (hy : y ≠ 0) :
    (y : F) ≠ 0 := by
  intro h
  apply hy
  have h0 : (y : F) = ((0 : ℤ) : F) := by
    rw [h]
    rfl
  exact intCast_inj_range hy0 hyp (le_refl 0) p_int_pos h0

theorem negY_eq (x y : F) : W.negY x y = -y := by
  simp [WeierstrassCurve.Affine.negY, W]

/-- For a canonical nonzero `y`, the cast of `y` differs from its negative
(`char F = p` is odd). -/
theorem cast_ne_negY {y : ℤ} (hy0 : 0 ≤ y) (hyp : y < p) (hy : y ≠ 0) :
    (y : F) ≠ -(y : F) := by
  intro h
  have h2 : (2 : F) * (y : F) = 0 := by
    linear_combination h
  rcases mul_eq_zero.mp h2 with h2' | hy'
  · exact F_two_ne_zero h2'
  · exact cast_ne_zero_of_range hy0 hyp hy hy'

theorem dbl_rep {P : EPoint} {A : W.Point} (hP : Rep P A) :
    ∃ P', dbl P = some P' ∧ Rep P' (A + A) := by
  cases hP with
  | ident =>
    refine ⟨.identity, rfl, ?_⟩
    show Rep .identity (0 + 0)
    rw [add_zero]
    exact .ident
  | aff x y hx0 hxp hy0 hyp hns =>
    by_cases hy : y = 0
    · subst hy
      refine ⟨.identity, by simp [dbl], ?_⟩
      have hzero : WeierstrassCurve.Affine.Point.some hns +
          WeierstrassCurve.Affine.Point.some hns = 0 := by
        apply WeierstrassCurve.Affine.Point.add_self_of_Y_eq
        rw [negY_eq]
        push_cast
        ring
      rw [hzero]
      exact .ident
    · have hyF : (y : F) ≠ 0 := cast_ne_zero_of_range hy0 hyp hy
      have hYne : (y : F) ≠ W.negY (x : F) (y : F) := by
        rw [negY_eq]
        exact cast_ne_negY hy0 hyp hy
      have h2y : ((2 * y : ℤ) : F) ≠ 0 := by
        push_cast
        exact mul_ne_zero F_two_ne_zero hyF
      have hinv : invertible (2 * y) := (invertible_iff _).mpr h2y
      set s : ℤ := (3 * ((x ^ 2) % (p : ℤ)) + (a : Int)) * pinv (2 * y) with hs_def
      set xR : ℤ := ((s ^ 2) % (p : ℤ) - 2 * x) % (p : ℤ) with hxR_def
      set yR : ℤ := (-y + s * (x - xR)) % (p : ℤ) with hyR_def
      have hdbl : dbl (.affine x y) = some (.affine xR yR) := by
        show (if y = 0 then some EPoint.identity
          else if ¬ invertible (2 * y) then none
          else _) = _
        rw [if_neg hy, if_neg (by
          intro hcon
          exact hcon hinv)]
      have hL : ((s : ℤ) : F) = W.slope (x : F) (x : F) (y : F) (y : F) := by
        rw [WeierstrassCurve.Affine.slope_of_Y_ne rfl hYne, negY_eq]
        show _ = (3 * (x : F) ^ 2 + 2 * W.a₂ * (x : F) + W.a₄ - W.a₁ * (y : F)) / _
        simp only [W]
        rw [hs_def]
        push_cast [pinv_cast, intCast_emod_p]
        rw [div_eq_mul_inv]
        have hden : ((y : F) - -(y : F)) = 2 * (y : F) := by ring
        rw [hden]
        ring
      have hxRF : ((xR : ℤ) : F) =
          W.addX (x : F) (x : F) (W.slope (x : F) (x : F) (y : F) (y : F)) := by
        rw [hxR_def, intCast_emod_p]
        push_cast [intCast_emod_p]
        rw [← hL]
        show _ = ((s : ℤ) : F) ^ 2 + W.a₁ * _ - W.a₂ - _ - _
        simp only [W]
        ring
      have hyRF : ((yR : ℤ) : F) =
          W.addY (x : F) (x : F) (y : F) (W.slope (x : F) (x : F) (y : F) (y : F)) := by
        rw [hyR_def, intCast_emod_p]
        push_cast
        rw [← hL]
        show _ = W.negY _ (W.negAddY _ _ _ _)
        rw [negY_eq]
        show _ = -(_ * (W.addX _ _ _ - _) + _)
        have hxRF2 : ((xR : ℤ) : F) = W.addX (x : F) (x : F) ((s : ℤ) : F) := by
          rw [hxRF, hL]
        rw [← hxRF2]
        ring
      have hsum : WeierstrassCurve.Affine.Point.some hns +
          WeierstrassCurve.Affine.Point.some hns =
          WeierstrassCurve.Affine.Point.some
            (WeierstrassCurve.Affine.nonsingular_add hns hns fun _ => hYne) :=
        WeierstrassCurve.Affine.Point.add_self_of_Y_ne hYne
      have hns2 : W.Nonsingular ((xR : ℤ) : F) ((yR : ℤ) : F) := by
        rw [hxRF, hyRF]
        exact WeierstrassCurve.Affine.nonsingular_add hns hns fun _ => hYne
      refine ⟨.affine xR yR, hdbl, ?_⟩
      have hfinal : WeierstrassCurve.Affine.Point.some hns +
          WeierstrassCurve.Affine.Point.some hns =
          WeierstrassCurve.Affine.Point.some hns2 := by
        rw [hsum]
        exact some_eq_some _ _ hxRF.symm hyRF.symm
      rw [hfinal]
      exact .aff xR yR (mod_nonneg' _) (by
        have := mod_lt' ((s ^ 2) % (p : ℤ) - 2 * x)
        exact_mod_cast this) (mod_nonneg' _) (by
        have := mod_lt' (-y + s * (x - xR))
        exact_mod_cast this) hns2

theorem add_self (P : EPoint) : add P P = dbl P := by
  rw [add.eq_def, if_pos rfl]

theorem add_ident_left {Q : EPoint} (h : EPoint.identity ≠ Q) :
    add .identity Q = some Q := by
  cases Q with
  | identity => exact absurd rfl h
  | affine x y => rw [add.eq_def, if_neg h]

theorem add_ident_right {x y : ℤ} :
    add (.affine x y) .identity = some (.affine x y) := by
  rw [add.eq_def, if_neg (by
    intro h
    exact EPoint.noConfusion h)]

theorem add_affine {x y x' y' : ℤ} (hne : EPoint.affine x y ≠ .affine x' y') :
    add (.affine x y) (.affine x' y') =
      (if EPoint.affine x' y' = inv (.affine x y) then some .identity
       else if ¬ invertible (x - x') then none
       else
         let s : Int := (y - y') * pinv (x - x')
         let xR : Int := ((s ^ 2) % (p : ℤ) - x - x') % (p : ℤ)
         some (.affine xR ((-y + s * (x - xR)) % (p : ℤ)))) := by
  rw [add.eq_def, if_neg hne]

theorem add_rep {P Q : EPoint} {A B : W.Point} (hP : Rep P A) (hQ : Rep Q B) :
    ∃ R', add P Q = some R' ∧ Rep R' (A + B) := by
  by_cases hPQ : P = Q
  · subst hPQ
    have hAB : A = B := Rep.det hP hQ
    subst hAB
    obtain ⟨P', hd, hr⟩ := dbl_rep hP
    refine ⟨P', ?_, hr⟩
    rw [add_self]
    exact hd
  · cases hP with
    | ident =>
      cases hQ with
      | ident => exact absurd rfl hPQ
      | aff x' y' hx0' hxp' hy0' hyp' hns' =>
        refine ⟨.affine x' y', add_ident_left hPQ, ?_⟩
        rw [zero_add]
        exact .aff x' y' hx0' hxp' hy0' hyp' hns'
    | aff x y hx0 hxp hy0 hyp hns =>
      cases hQ with
      | ident =>
        refine ⟨.affine x y, add_ident_right, ?_⟩
        rw [add_zero]
        exact .aff x y hx0 hxp hy0 hyp hns
      | aff x' y' hx0' hxp' hy0' hyp' hns' =>
        have hyinv_cast : (((-y) % (p : ℤ) : ℤ) : F) = -(y : F) := by
          rw [intCast_emod_p]
          push_cast
          ring
        by_cases hQinv : EPoint.affine x' y' = inv (.affine x y)
        · refine ⟨.identity, ?_, ?_⟩
          · rw [add_affine hPQ, if_pos hQinv]
          · have hx' : x' = x ∧ y' = (-y) % (p : ℤ) := by
              rw [inv] at hQinv
              injection hQinv with h1 h2
              exact ⟨h1, h2⟩
            have hzero : WeierstrassCurve.Affine.Point.some hns +
                WeierstrassCurve.Affine.Point.some hns' = 0 := by
              apply WeierstrassCurve.Affine.Point.add_of_Y_eq
              · rw [hx'.1]
              · rw [negY_eq, hx'.2, hyinv_cast]
                ring
            rw [hzero]
            exact .ident
        · -- generic chord case: the two x-coordinates differ in `F`
          have hxne : (x : F) ≠ (x' : F) := by
            intro heq
            have hxx : x = x' := intCast_inj_range hx0 hxp hx0' hxp' heq
            rcases WeierstrassCurve.Affine.Y_eq_of_X_eq hns.1 hns'.1 heq with hyy | hyy
            · exact hPQ (by
                rw [hxx, intCast_inj_range hy0 hyp hy0' hyp' hyy])
            · rw [negY_eq] at hyy
              apply hQinv
              rw [inv]
              have hy'e : y' = (-y) % (p : ℤ) := by
                apply intCast_inj_range hy0' hyp' (mod_nonneg' _) (mod_lt' _)
                rw [hyinv_cast]
                linear_combination hyy
              rw [← hxx, ← hy'e]
          have hsub : ((x - x' : ℤ) : F) ≠ 0 := by
            push_cast
            exact sub_ne_zero_of_ne hxne
          have hinv : invertible (x - x') := (invertible_iff _).mpr hsub
          set s : ℤ := (y - y') * pinv (x - x') with hs_def
          set xR : ℤ := ((s ^ 2) % (p : ℤ) - x - x') % (p : ℤ) with hxR_def
          set yR : ℤ := (-y + s * (x - xR)) % (p : ℤ) with hyR_def
          have hadd : add (.affine x y) (.affine x' y') = some (.affine xR yR) := by
            rw [add_affine hPQ, if_neg hQinv, if_neg (by
              intro hcon
              exact hcon hinv)]
          have hL : ((s : ℤ) : F) = W.slope (x : F) (x' : F) (y : F) (y' : F) := by
            rw [WeierstrassCurve.Affine.slope_of_X_ne hxne]
            rw [hs_def]
            push_cast [pinv_cast]
            rw [div_eq_mul_inv]
          have hxRF : ((xR : ℤ) : F) =
              W.addX (x : F) (x' : F) (W.slope (x : F) (x' : F) (y : F) (y' : F)) := by
            rw [hxR_def, intCast_emod_p]
            push_cast [intCast_emod_p]
            rw [← hL]
            show _ = ((s : ℤ) : F) ^ 2 + W.a₁ * _ - W.a₂ - _ - _
            simp only [W]
            ring
          have hyRF : ((yR : ℤ) : F) =
              W.addY (x : F) (x' : F) (y : F)
                (W.slope (x : F) (x' : F) (y : F) (y' : F)) := by
            rw [hyR_def, intCast_emod_p]
            push_cast
            rw [← hL]
            show _ = W.negY _ (W.negAddY _ _ _ _)
            rw [negY_eq]
            show _ = -(_ * (W.addX _ _ _ - _) + _)
            have hxRF2 : ((xR : ℤ) : F) = W.addX (x : F) (x' : F) ((s : ℤ) : F) := by
              rw [hxRF, hL]
            rw [← hxRF2]
            ring
          have hsum : WeierstrassCurve.Affine.Point.some hns +
              WeierstrassCurve.Affine.Point.some hns' =
              WeierstrassCurve.Affine.Point.some
                (WeierstrassCurve.Affine.nonsingular_add hns hns'
                  fun h => (hxne h).elim) :=
            WeierstrassCurve.Affine.Point.add_of_X_ne hxne
          have hns2 : W.Nonsingular ((xR : ℤ) : F) ((yR : ℤ) : F) := by
            rw [hxRF, hyRF]
            exact WeierstrassCurve.Affine.nonsingular_add hns hns' fun h => (hxne h).elim
          refine ⟨.affine xR yR, hadd, ?_⟩
          have hfinal : WeierstrassCurve.Affine.Point.some hns +
              WeierstrassCurve.Affine.Point.some hns' =
              WeierstrassCurve.Affine.Point.some hns2 := by
            rw [hsum]
            exact some_eq_some _ _ hxRF.symm hyRF.symm
          rw [hfinal]
          exact .aff xR yR (mod_nonneg' _) (by
            have := mod_lt' ((s ^ 2) % (p : ℤ) - x - x')
            exact_mod_cast this) (mod_nonneg' _) (by
            have := mod_lt' (-y + s * (x - xR))
            exact_mod_cast this) hns2

theorem mulLoop_rep : ∀ (fuel k : ℕ) {N R : EPoint} {A B : W.Point},
    Rep N A → Rep R B → k < 2 ^ fuel →
    ∃ S, mulLoop fuel N R k = some S ∧ Rep S (B + k • A) := by
  intro fuel
  induction fuel with
  | zero =>
    intro k N R A B hN hR hk
    interval_cases k
    refine ⟨R, rfl, ?_⟩
    rw [zero_nsmul, add_zero]
    exact hR
  | succ f ih =>
    intro k N R A B hN hR hk
    by_cases hk0 : k = 0
    · subst hk0
      refine ⟨R, by simp [mulLoop], ?_⟩
      rw [zero_nsmul, add_zero]
      exact hR
    · have hkhalf : k / 2 < 2 ^ f := by
        have hh : k < 2 ^ f * 2 := by
          simpa [Nat.pow_succ] using hk
        omega
      obtain ⟨N', hdN, hrN⟩ := dbl_rep hN
      rcases Nat.mod_two_eq_zero_or_one k with hpar | hpar
      · obtain ⟨S, hS, hrS⟩ := ih (k / 2) hrN hR hkhalf
        refine ⟨S, ?_, ?_⟩
        · show mulLoop (f + 1) N R k = some S
          rw [mulLoop, if_neg hk0, hpar, if_neg (by omega), Option.some_bind,
            hdN, Option.some_bind]
          exact hS
        · have hkk : 2 * (k / 2) = k := by omega
          have heq : B + (k / 2) • (A + A) = B + k • A := by
            rw [← two_nsmul, ← mul_nsmul A 2 (k / 2), hkk]
          rw [← heq]
          exact hrS
      · obtain ⟨R', hAdd, hrR'⟩ := add_rep hR hN
        obtain ⟨S, hS, hrS⟩ := ih (k / 2) hrN hrR' hkhalf
        refine ⟨S, ?_, ?_⟩
        · show mulLoop (f + 1) N R k = some S
          rw [mulLoop, if_neg hk0, hpar, if_pos rfl, hAdd, Option.some_bind,
            hdN, Option.some_bind]
          exact hS
        · have hk2 : k = 2 * (k / 2) + 1 := by omega
          have heq : B + A + (k / 2) • (A + A) = B + k • A := by
            rw [← two_nsmul, ← mul_nsmul A 2 (k / 2)]
            conv_rhs => rw [hk2]
            rw [succ_nsmul]
            abel
          rw [← heq]
          exact hrS

theorem mul_rep {P : EPoint} {A : W.Point} (hP : Rep P A) (k : ℕ) :
    ∃ S, mul P k = some S ∧ Rep S (k • A) := by
  cases hP with
  | ident =>
    refine ⟨.identity, rfl, ?_⟩
    have h0 : (k • (0 : W.Point)) = 0 := nsmul_zero k
    rw [h0]
    exact .ident
  | aff x y hx0 hxp hy0 hyp hns =>
    have hk : k < 2 ^ (k + 1) := by
      calc k < 2 ^ k := Nat.lt_two_pow k
        _ ≤ 2 ^ (k + 1) := Nat.pow_le_pow_right (by omega) (by omega)
    obtain ⟨S, hS, hrS⟩ :=
      mulLoop_rep (k + 1) k (.aff x y hx0 hxp hy0 hyp hns) .ident hk
    refine ⟨S, hS, ?_⟩
    simpa using hrS

theorem inv_rep {P : EPoint} {A : W.Point} (hP : Rep P A) : Rep (inv P) (-A) := by
  cases hP with
  | ident =>
    show Rep .identity (-(0 : W.Point))
    rw [neg_zero]
    exact .ident
  | aff x y hx0 hxp hy0 hyp hns =>
    show Rep (.affine x ((-y) % (p : ℤ)))
      (-(WeierstrassCurve.Affine.Point.some hns))
    rw [WeierstrassCurve.Affine.Point.neg_some]
    have hcast : ((((-y) % (p : ℤ)) : ℤ) : F) = W.negY (x : F) (y : F) := by
      rw [negY_eq, intCast_emod_p]
      push_cast
      ring
    have hns2 : W.Nonsingular ((x : ℤ) : F) (((((-y) % (p : ℤ))) : ℤ) : F) := by
      rw [hcast]
      exact WeierstrassCurve.Affine.nonsingular_neg hns
    have hsome : WeierstrassCurve.Affine.Point.some
        (WeierstrassCurve.Affine.nonsingular_neg hns) =
        WeierstrassCurve.Affine.Point.some hns2 :=
      some_eq_some _ _ rfl hcast.symm
    rw [hsome]
    exact .aff x _ hx0 hxp (mod_nonneg' _) (mod_lt' _) hns2

/-! ## Claim C8: identity and inverse laws of `add` -/

/-- C8: for every valid point `P` (the identity, or an on-curve affine point
with coordinates in `[0, p)`): `add(P, negate(P)) == Identity`,
`add(P, Identity) == P`, and `add(Identity, P) == P`. -/
theorem claimC8 (P : EPoint) (h : Valid P) :
    add P (inv P) = some .identity ∧ add P .identity = some P ∧
      add .identity P = some P := by
  obtain ⟨A, hA⟩ := rep_of_valid h
  refine ⟨?_, ?_, ?_⟩
  · obtain ⟨R', hR', hrep⟩ := add_rep hA (inv_rep hA)
    have h0 : A + -A = 0 := by abel
    rw [h0] at hrep
    rw [hR']
    rw [Rep.inj hrep Rep.ident]
  · obtain ⟨R', hR', hrep⟩ := add_rep hA Rep.ident
    rw [add_zero] at hrep
    rw [hR', Rep.inj hrep hA]
  · obtain ⟨R', hR', hrep⟩ := add_rep Rep.ident hA
    rw [zero_add] at hrep
    rw [hR', Rep.inj hrep hA]

/-- Witness for C8 at the generator point. -/
theorem claimC8_witness :
    Valid Gpt ∧ (add Gpt (inv Gpt) = some .identity ∧
      add Gpt .identity = some Gpt ∧ add .identity Gpt = some Gpt) :=
  ⟨by decide, claimC8 Gpt (by decide)⟩

/-! ## Claim C9: outputs stay in canonical range `[0, p)` -/

theorem inv_inRange {P : EPoint} (h : InRange P) : InRange (inv P) := by
  cases P with
  | identity => trivial
  | affine x y => exact ⟨h.1, h.2.1, mod_nonneg' _, mod_lt' _⟩

theorem dbl_inRange {P R' : EPoint} (h : InRange P) (hd : dbl P = some R') :
    InRange R' := by
  cases P with
  | identity =>
    rw [show dbl .identity = some .identity from rfl] at hd
    rw [← Option.some.inj hd]
    trivial
  | affine x y =>
    simp only [dbl] at hd
    split at hd
    · rw [← Option.some.inj hd]
      trivial
    · split at hd
      · exact absurd hd (by simp)
      · rw [← Option.some.inj hd]
        exact ⟨mod_nonneg' _, mod_lt' _, mod_nonneg' _, mod_lt' _⟩

theorem add_inRange {P Q R' : EPoint} (hP : InRange P) (hQ : InRange Q)
    (ha : add P Q = some R') : InRange R' := by
  by_cases hPQ : P = Q
  · subst hPQ
    rw [add_self] at ha
    exact dbl_inRange hP ha
  · cases P with
    | identity =>
      rw [add_ident_left hPQ] at ha
      rw [← Option.some.inj ha]
      exact hQ
    | affine x y =>
      cases Q with
      | identity =>
        rw [add_ident_right] at ha
        rw [← Option.some.inj ha]
        exact hP
      | affine x' y' =>
        rw [add_affine hPQ] at ha
        split at ha
        · rw [← Option.some.inj ha]
          trivial
        · split at ha
          · exact absurd ha (by simp)
          · rw [← Option.some.inj ha]
            exact ⟨mod_nonneg' _, mod_lt' _, mod_nonneg' _, mod_lt' _⟩

theorem mulLoop_inRange : ∀ (fuel k : ℕ) {N R S : EPoint},
    InRange N → InRange R → mulLoop fuel N R k = some S → InRange S := by
  intro fuel
  induction fuel with
  | zero =>
    intro k N R S hN hR hm
    rw [show mulLoop 0 N R k = some R from rfl] at hm
    rw [← Option.some.inj hm]
    exact hR
  | succ f ih =>
    intro k N R S hN hR hm
    rw [mulLoop] at hm
    by_cases hk0 : k = 0
    · rw [if_pos hk0] at hm
      rw [← Option.some.inj hm]
      exact hR
    · rw [if_neg hk0] at hm
      rcases hR' : (if k % 2 = 1 then add R N else some R) with _ | R'
      · rw [hR'] at hm
        exact absurd hm (by simp)
      · rw [hR', Option.some_bind] at hm
        rcases hN' : dbl N with _ | N'
        · rw [hN'] at hm
          exact absurd hm (by simp)
        · rw [hN', Option.some_bind] at hm
          have hRr : InRange R' := by
            by_cases hb : k % 2 = 1
            · rw [if_pos hb] at hR'
              exact add_inRange hR hN hR'
            · rw [if_neg hb] at hR'
              rw [← Option.some.inj hR']
              exact hR
          exact ih (k / 2) (dbl_inRange hN hN') hRr hm

theorem mul_inRange {P : EPoint} {k : ℕ} {S : EPoint} (h : InRange P)
    (hm : mul P k = some S) : InRange S := by
  cases P with
  | identity =>
    rw [show mul .identity k = some .identity from rfl] at hm
    rw [← Option.some.inj hm]
    trivial
  | affine x y =>
    rw [show mul (.affine x y) k = mulLoop (k + 1) (.affine x y) .identity k
      from rfl] at hm
    exact mulLoop_inRange (k + 1) k h (show InRange .identity from trivial) hm

/-- C9: for inputs whose affine coordinates lie in `[0, p)`, every affine
point returned by `inv` (negate), `add`, `dbl` (double), or `mul` again has
both coordinates in `[0, p)` — even though the intermediate slope `s` is not
reduced modulo `p` before being used. -/
theorem claimC9 :
    (∀ P, InRange P → InRange (inv P)) ∧
    (∀ P Q R', InRange P → InRange Q → add P Q = some R' → InRange R') ∧
    (∀ P R', InRange P → dbl P = some R' → InRange R') ∧
    (∀ P k S, InRange P → mul P k = some S → InRange S) :=
  ⟨fun _ h => inv_inRange h,
   fun _ _ _ hP hQ ha => add_inRange hP hQ ha,
   fun _ _ hP hd => dbl_inRange hP hd,
   fun _ _ _ hP hm => mul_inRange hP hm⟩

/-- Witness for C9 at concrete points. -/
theorem claimC9_witness :
    InRange (inv (.affine 0 0)) ∧ InRange EPoint.identity ∧
      InRange EPoint.identity ∧ InRange EPoint.identity :=
  ⟨claimC9.1 (.affine 0 0) (by decide),
   claimC9.2.1 (.affine 0 0) (.affine 0 0) .identity (by decide) (by decide)
     (by decide),
   claimC9.2.2.1 (.affine 0 0) .identity (by decide) (by decide),
   claimC9.2.2.2 (.affine 0 0) 0 .identity (by decide) (by decide)⟩

/-! ## Claim C6: the chord/tangent denominators never vanish on valid points -/

/-- C6: on valid inputs (identity or on-curve affine points with coordinates
in `[0, p)`), neither `add` nor `dbl` can hit Python's `ValueError` from a
non-invertible denominator: the modular inversion in `add` is only applied
to `xP - xQ ≢ 0 (mod p)` and in `dbl` only to `2·y ≢ 0 (mod p)`, so the
`DivideByZero` failure is unreachable. -/
theorem claimC6 (P Q : EPoint) (hP : Valid P) (hQ : Valid Q) :
    add P Q ≠ none ∧ dbl P ≠ none := by
  obtain ⟨A, hA⟩ := rep_of_valid hP
  obtain ⟨B, hB⟩ := rep_of_valid hQ
  obtain ⟨R', ha, _⟩ := add_rep hA hB
  obtain ⟨D', hd, _⟩ := dbl_rep hA
  rw [ha, hd]
  exact ⟨by simp, by simp⟩

/-- Witness for C6 at the generator point. -/
theorem claimC6_witness :
    Valid Gpt ∧ (add Gpt Gpt ≠ none ∧ dbl Gpt ≠ none) :=
  ⟨by decide, claimC6 Gpt Gpt (by decide) (by decide)⟩

/-! ## Claim C4: `dbl` implements the spec doubling case analysis -/

theorem invertible_iff_mod (u : ℤ) : invertible u ↔ u % (p : ℤ) ≠ 0 :=
  (invertible_iff u).trans
    (not_congr ((intCast_eq_zero_iff u).trans Int.dvd_iff_emod_eq_zero))

/-- The doubling formula with the slope reduced modulo `p`, exactly as the
specification words it: `s = (3x² + a)·inverse(2y) mod p`,
`x' = (s² − 2x) mod p`, `y' = (−y + s(x − x')) mod p`. -/
def specDbl (x y : Int) : EPoint :=
  .affine
    (((((3 * x ^ 2 + (a : Int)) * pinv (2 * y)) % (p : ℤ)) ^ 2 - 2 * x) % (p : ℤ))
    ((-y + (((3 * x ^ 2 + (a : Int)) * pinv (2 * y)) % (p : ℤ)) *
      (x - (((((3 * x ^ 2 + (a : Int)) * pinv (2 * y)) % (p : ℤ)) ^ 2 - 2 * x)
        % (p : ℤ)))) % (p : ℤ))

/-- C4: `dbl` maps `Identity` to `Identity`, an affine point with `y = 0` to
`Identity`, and an affine point with `0 < y < p` to the affine point given by
the spec's tangent formula. -/
theorem claimC4 :
    dbl .identity = some .identity ∧
    (∀ x : ℤ, dbl (.affine x 0) = some .identity) ∧
    (∀ x y : ℤ, 0 < y → y < p → dbl (.affine x y) = some (specDbl x y)) := by
  refine ⟨rfl, fun x => by simp [dbl], fun x y hy0 hyp => ?_⟩
  have hyne : y ≠ 0 := by omega
  have hinv : invertible (2 * y) := by
    rw [invertible_iff]
    push_cast
    exact mul_ne_zero F_two_ne_zero (cast_ne_zero_of_range (by omega) hyp hyne)
  have hguard : dbl (.affine x y) = some (.affine
      ((((3 * ((x ^ 2) % (p : ℤ)) + (a : Int)) * pinv (2 * y)) ^ 2 % (p : ℤ)
        - 2 * x) % (p : ℤ))
      ((-y + ((3 * ((x ^ 2) % (p : ℤ)) + (a : Int)) * pinv (2 * y)) *
        (x - ((((3 * ((x ^ 2) % (p : ℤ)) + (a : Int)) * pinv (2 * y)) ^ 2
          % (p : ℤ) - 2 * x) % (p : ℤ)))) % (p : ℤ))) := by
    simp only [dbl, if_neg hyne, if_neg (not_not_intro hinv)]
  rw [hguard]
  unfold specDbl
  have hs : ((3 * ((x ^ 2) % (p : ℤ)) + (a : Int)) * pinv (2 * y)) ≡
      ((3 * x ^ 2 + (a : Int)) * pinv (2 * y)) % (p : ℤ) [ZMOD (p : ℤ)] := by
    have h1 : (3 * ((x ^ 2) % (p : ℤ)) + (a : Int)) ≡
        3 * x ^ 2 + (a : Int) [ZMOD (p : ℤ)] :=
      ((Int.mod_modEq (x ^ 2) (p : ℤ)).mul_left 3).add_right _
    exact (h1.mul_right _).trans (Int.mod_modEq _ _).symm
  have hx' : ((((3 * ((x ^ 2) % (p : ℤ)) + (a : Int)) * pinv (2 * y)) ^ 2
      % (p : ℤ) - 2 * x) % (p : ℤ)) =
      (((((3 * x ^ 2 + (a : Int)) * pinv (2 * y)) % (p : ℤ)) ^ 2 - 2 * x)
        % (p : ℤ)) := by
    show Int.ModEq _ _ _
    exact ((Int.mod_modEq _ _).trans (hs.pow 2)).sub (Int.ModEq.refl _)
  rw [hx']
  congr 2
  show Int.ModEq _ _ _
  exact (hs.mul_right _).add_left _

/-- Witness for C4's tangent case at the generator. -/
theorem claimC4_witness :
    (0 : ℤ) < Gy ∧ Gy < p ∧ dbl (.affine Gx Gy) = some (specDbl Gx Gy) := by
  refine ⟨by decide, by decide, ?_⟩
  exact claimC4.2.2 Gx Gy (by decide) (by decide)

/-! ## Claim C3: `add` implements the spec's complete case analysis -/

/-- The chord formula with the slope reduced modulo `p`, exactly as the spec
words it: `s = (yP−yQ)·inverse(xP−xQ) mod p`, `x' = (s²−xP−xQ) mod p`,
`y' = (−yP + s(xP−x')) mod p`; `none` models the spec's `inverse` being
undefined when `xP − xQ ≡ 0 (mod p)`. -/
def specAddChord (xP yP xQ yQ : Int) : Option EPoint :=
  if (xP - xQ) % (p : ℤ) = 0 then none
  else
    some (.affine
      (((((yP - yQ) * pinv (xP - xQ)) % (p : ℤ)) ^ 2 - xP - xQ) % (p : ℤ))
      ((-yP + (((yP - yQ) * pinv (xP - xQ)) % (p : ℤ)) *
        (xP - (((((yP - yQ) * pinv (xP - xQ)) % (p : ℤ)) ^ 2 - xP - xQ)
          % (p : ℤ)))) % (p : ℤ)))

/-- C3: `add` follows the spec's ordered case analysis on all inputs with
coordinates in `[0, p)`: equal points double; an identity operand returns the
other operand; inverse pairs return the identity; otherwise the chord formula
(with its partial modular inverse) gives the result. -/
theorem claimC3 (P Q : EPoint) (hP : InRange P) (hQ : InRange Q) :
    (P = Q → add P Q = dbl P) ∧
    (P ≠ Q → P = .identity → add P Q = some Q) ∧
    (P ≠ Q → Q = .identity → add P Q = some P) ∧
    (P ≠ Q → Q = inv P → add P Q = some .identity) ∧
    (∀ xP yP xQ yQ, P = .affine xP yP → Q = .affine xQ yQ → P ≠ Q →
      Q ≠ inv P → add P Q = specAddChord xP yP xQ yQ) := by
  refine ⟨?_, ?_, ?_, ?_, ?_⟩
  · intro h
    subst h
    exact add_self P
  · intro hne hid
    subst hid
    exact add_ident_left hne
  · intro hne hid
    subst hid
    cases P with
    | identity => exact absurd rfl hne
    | affine x y => exact add_ident_right
  · intro hne hqinv
    subst hqinv
    cases P with
    | identity => exact absurd rfl hne
    | affine x y =>
      rw [show inv (.affine x y) = .affine x ((-y) % (p : ℤ)) from rfl] at hne ⊢
      rw [add_affine hne,
        if_pos (show EPoint.affine x ((-y) % (p : ℤ)) = inv (.affine x y) from rfl)]
  · intro xP yP xQ yQ hPe hQe hne hqinv
    subst hPe
    subst hQe
    rw [add_affine hne, if_neg hqinv]
    unfold specAddChord
    by_cases hz : (xP - xQ) % (p : ℤ) = 0
    · have hni : ¬ invertible (xP - xQ) := fun hi =>
        (invertible_iff_mod _).mp hi hz
      rw [if_pos hni, if_pos hz]
    · have hi : invertible (xP - xQ) := (invertible_iff_mod _).mpr hz
      rw [if_neg (not_not_intro hi), if_neg hz]
      show some (EPoint.affine
          ((((yP - yQ) * pinv (xP - xQ)) ^ 2 % (p : ℤ) - xP - xQ) % (p : ℤ))
          ((-yP + ((yP - yQ) * pinv (xP - xQ)) *
            (xP - ((((yP - yQ) * pinv (xP - xQ)) ^ 2 % (p : ℤ) - xP - xQ)
              % (p : ℤ)))) % (p : ℤ))) = _
      have hs : (yP - yQ) * pinv (xP - xQ) ≡
          ((yP - yQ) * pinv (xP - xQ)) % (p : ℤ) [ZMOD (p : ℤ)] :=
        (Int.mod_modEq _ _).symm
      have hx' : (((yP - yQ) * pinv (xP - xQ)) ^ 2 % (p : ℤ) - xP - xQ)
          % (p : ℤ) =
          ((((yP - yQ) * pinv (xP - xQ)) % (p : ℤ)) ^ 2 - xP - xQ)
          % (p : ℤ) := by
        show Int.ModEq _ _ _
        exact (((Int.mod_modEq _ _).trans (hs.pow 2)).sub
          (Int.ModEq.refl xP)).sub (Int.ModEq.refl xQ)
      rw [hx']
      congr 2
      show Int.ModEq _ _ _
      exact (hs.mul_right _).add_left _

/-- Witness for C3 (inverse-pair case) at the generator point. -/
theorem claimC3_witness :
    InRange Gpt ∧ InRange (inv Gpt) ∧
      (Gpt ≠ inv Gpt → inv Gpt = inv Gpt → add Gpt (inv Gpt) = some .identity) :=
  ⟨by decide, by decide,
    (claimC3 Gpt (inv Gpt) (by decide) (by decide)).2.2.2.1⟩

/-! ## Claim C2: `mul` computes the iterated group sum -/

/-- The reference `k`-fold iterated group sum of the claim: `P` added into an
accumulator that starts at `Identity`, `k` times, under `add` (exceptions
propagate). -/
def iterAdd (P : EPoint) : Nat → Option EPoint
  | 0 => some .identity
  | k + 1 => Option.bind (iterAdd P k) fun R => add R P

theorem iterAdd_rep {P : EPoint} {A : W.Point} (hP : Rep P A) :
    ∀ k : ℕ, ∃ S, iterAdd P k = some S ∧ Rep S (k • A) := by
  intro k
  induction k with
  | zero =>
    refine ⟨.identity, rfl, ?_⟩
    rw [zero_nsmul]
    exact .ident
  | succ k ih =>
    obtain ⟨S, hS, hrS⟩ := ih
    obtain ⟨S', hadd, hrS'⟩ := add_rep hrS hP
    refine ⟨S', ?_, ?_⟩
    · rw [iterAdd, hS, Option.some_bind]
      exact hadd
    · rw [succ_nsmul]
      exact hrS'

/-- C2: for every valid point `P` and every `k ≥ 0`, `mul(P, k)` equals the
`k`-fold iterated group sum of `P` under `add`; in particular
`mul(P, 0) == Identity` and `mul(Identity, k) == Identity`. -/
theorem claimC2 (P : EPoint) (h : Valid P) (k : ℕ) :
    mul P k = iterAdd P k ∧ mul P 0 = some .identity ∧
      mul .identity k = some .identity := by
  refine ⟨?_, ?_, rfl⟩
  · obtain ⟨A, hA⟩ := rep_of_valid h
    obtain ⟨S, hm, hrm⟩ := mul_rep hA k
    obtain ⟨S', hi, hri⟩ := iterAdd_rep hA k
    rw [hm, hi, Rep.inj hrm hri]
  · cases P with
    | identity => rfl
    | affine x y => rfl

/-- Witness for C2 at the generator with `k = 3`. -/
theorem claimC2_witness :
    Valid Gpt ∧ (mul Gpt 3 = iterAdd Gpt 3 ∧ mul Gpt 0 = some .identity ∧
      mul .identity 3 = some .identity) :=
  ⟨by decide, claimC2 Gpt (by decide) 3⟩

/-! ## Claim C1: the key-exchange commutation law -/

/-- C1: for all scalars `1 ≤ d < n` and `1 ≤ r < n`,
`mul(mul(G, d), r) == mul(mul(G, r), d)` — the commuting double scalar
multiplication that makes the two sides of the exchange agree. -/
theorem claimC1 (d r : ℕ) (_hd1 : 1 ≤ d) (_hdn : d < n) (_hr1 : 1 ≤ r)
    (_hrn : r < n) :
    Option.bind (mul Gpt d) (fun Q => mul Q r) =
      Option.bind (mul Gpt r) (fun Q => mul Q d) := by
  obtain ⟨AG, hAG⟩ := rep_of_valid (show Valid Gpt by decide)
  obtain ⟨Qd, hQd, hrd⟩ := mul_rep hAG d
  obtain ⟨Qr, hQr, hrr⟩ := mul_rep hAG r
  obtain ⟨Sd, hSd, hrsd⟩ := mul_rep hrd r
  obtain ⟨Sr, hSr, hrsr⟩ := mul_rep hrr d
  rw [hQd, hQr, Option.some_bind, Option.some_bind, hSd, hSr]
  have hsm : d • r • AG = r • d • AG := by
    rw [← mul_nsmul AG r d, ← mul_nsmul AG d r, Nat.mul_comm]
  rw [← hsm] at hrsd
  rw [Rep.inj hrsd hrsr]

/-- Witness for C1 at `d = 1`, `r = 2`. -/
theorem claimC1_witness :
    (1 ≤ 1 ∧ 1 < n ∧ 1 ≤ 2 ∧ 2 < n) ∧
      Option.bind (mul Gpt 1) (fun Q => mul Q 2) =
        Option.bind (mul Gpt 2) (fun Q => mul Q 1) :=
  ⟨⟨le_refl 1, by decide, by decide, by decide⟩,
    claimC1 1 2 (by decide) (by decide) (by decide) (by decide)⟩

/-! ## Claim C10: the group law never reads the curve parameter `b` -/

/-- The module-level curve parameters (lines 67–71) as an explicit record, so
that dependence of the group law on each parameter can be stated. -/
structure Params where
  pP : Nat
  aP : Nat
  bP : Nat
  GP : EPoint
  nP : Nat

/-- The configured brainpoolP192t1 parameter record. -/
def brainpool : Params := ⟨p, a, b, Gpt, n⟩

/-- `pinv` with the parameters explicit. -/
def pinvC (C : Params) (u : Int) : Int :=
  (powMod C.pP 192 (u % (C.pP : ℤ)).toNat (C.pP - 2) : Nat)

/-- `invertible` with the parameters explicit. -/
def invertibleC (C : Params) (u : Int) : Prop :=
  Nat.gcd (u % (C.pP : ℤ)).toNat C.pP = 1

instance (C : Params) (u : Int) : Decidable (invertibleC C u) := by
  unfold invertibleC
  infer_instance

/-- `dbl` with the parameters explicit. -/
def dblC (C : Params) : EPoint → Option EPoint
  | .identity => some .identity
  | .affine x y =>
    if y = 0 then some .identity
    else if ¬ invertibleC C (2 * y) then none
    else
      let s : Int := (3 * ((x ^ 2) % (C.pP : ℤ)) + (C.aP : Int)) * pinvC C (2 * y)
      let xR : Int := ((s ^ 2) % (C.pP : ℤ) - 2 * x) % (C.pP : ℤ)
      some (.affine xR ((-y + s * (x - xR)) % (C.pP : ℤ)))

/-- `add` with the parameters explicit. -/
def addC (C : Params) (P Q : EPoint) : Option EPoint :=
  if P = Q then dblC C P
  else
    match P, Q with
    | .identity, _ => some Q
    | _, .identity => some P
    | .affine xP yP, .affine xQ yQ =>
      if EPoint.affine xQ yQ = .affine xP ((-yP) % (C.pP : ℤ)) then some .identity
      else if ¬ invertibleC C (xP - xQ) then none
      else
        let s : Int := (yP - yQ) * pinvC C (xP - xQ)
        let xR : Int := ((s ^ 2) % (C.pP : ℤ) - xP - xQ) % (C.pP : ℤ)
        some (.affine xR ((-yP + s * (xP - xR)) % (C.pP : ℤ)))

/-- `mul`'s loop with the parameters explicit. -/
def mulLoopC (C : Params) (fuel : Nat) (N R : EPoint) (k : Nat) : Option EPoint :=
  match fuel with
  | 0 => some R
  | fuel + 1 =>
    if k = 0 then some R
    else
      Option.bind (if k % 2 = 1 then addC C R N else some R) fun R' =>
        Option.bind (dblC C N) fun N' => mulLoopC C fuel N' R' (k / 2)

/-- `mul` with the parameters explicit. -/
def mulC (C : Params) (P : EPoint) (k : Nat) : Option EPoint :=
  match P with
  | .identity => some P
  | _ => mulLoopC C (k + 1) P .identity k

theorem addC_brainpool (P Q : EPoint) : addC brainpool P Q = add P Q := rfl

theorem dblC_brainpool (P : EPoint) : dblC brainpool P = dbl P := rfl

theorem mulLoopC_brainpool :
    ∀ fuel N R k, mulLoopC brainpool fuel N R k = mulLoop fuel N R k := by
  intro fuel
  induction fuel with
  | zero => intro N R k; rfl
  | succ f ih =>
    intro N R k
    rw [mulLoopC, mulLoop]
    by_cases hk : k = 0
    · rw [if_pos hk, if_pos hk]
    · rw [if_neg hk, if_neg hk]
      have h1 : (if k % 2 = 1 then addC brainpool R N else some R) =
          (if k % 2 = 1 then add R N else some R) := by
        by_cases hb : k % 2 = 1
        · rw [if_pos hb, if_pos hb, addC_brainpool]
        · rw [if_neg hb, if_neg hb]
      rw [h1, dblC_brainpool]
      congr 1
      funext R'
      congr 1
      funext N'
      exact ih N' R' (k / 2)

theorem mulC_brainpool (P : EPoint) (k : Nat) : mulC brainpool P k = mul P k := by
  cases P with
  | identity => rfl
  | affine x y =>
    rw [show mulC brainpool (.affine x y) k =
      mulLoopC brainpool (k + 1) (.affine x y) .identity k from rfl]
    rw [show mul (.affine x y) k =
      mulLoop (k + 1) (.affine x y) .identity k from rfl]
    exact mulLoopC_brainpool (k + 1) _ _ k

theorem mulLoopC_b_invariant (C : Params) (b₁ b₂ : Nat) :
    ∀ fuel N R k, mulLoopC ⟨C.pP, C.aP, b₁, C.GP, C.nP⟩ fuel N R k =
      mulLoopC ⟨C.pP, C.aP, b₂, C.GP, C.nP⟩ fuel N R k := by
  intro fuel
  induction fuel with
  | zero => intro N R k; rfl
  | succ f ih =>
    intro N R k
    rw [mulLoopC, mulLoopC]
    by_cases hk : k = 0
    · rw [if_pos hk, if_pos hk]
    · rw [if_neg hk, if_neg hk]
      have h1 : (if k % 2 = 1 then addC ⟨C.pP, C.aP, b₁, C.GP, C.nP⟩ R N
          else some R) =
          (if k % 2 = 1 then addC ⟨C.pP, C.aP, b₂, C.GP, C.nP⟩ R N
          else some R) := by
        by_cases hb : k % 2 = 1
        · rw [if_pos hb, if_pos hb]
          rfl
        · rw [if_neg hb, if_neg hb]
      rw [h1, show dblC ⟨C.pP, C.aP, b₁, C.GP, C.nP⟩ N =
        dblC ⟨C.pP, C.aP, b₂, C.GP, C.nP⟩ N from rfl]
      congr 1
      funext R'
      congr 1
      funext N'
      exact ih N' R' (k / 2)

/-- C10: noninterference in the curve coefficient `b`: for any two values of
`b` and all point and scalar inputs, `add`, `dbl` and `mul` return identical
results — their computations read only `p` and `a`.  (`addC brainpool` etc.
coincide definitionally with the `add`/`dbl`/`mul` of the source.) -/
theorem claimC10 (C : Params) (b₁ b₂ : Nat) :
    (∀ P Q, addC ⟨C.pP, C.aP, b₁, C.GP, C.nP⟩ P Q =
      addC ⟨C.pP, C.aP, b₂, C.GP, C.nP⟩ P Q) ∧
    (∀ P, dblC ⟨C.pP, C.aP, b₁, C.GP, C.nP⟩ P =
      dblC ⟨C.pP, C.aP, b₂, C.GP, C.nP⟩ P) ∧
    (∀ P k, mulC ⟨C.pP, C.aP, b₁, C.GP, C.nP⟩ P k =
      mulC ⟨C.pP, C.aP, b₂, C.GP, C.nP⟩ P k) ∧
    (∀ P Q, addC brainpool P Q = add P Q) ∧
    (∀ P, dblC brainpool P = dbl P) ∧
    (∀ P k, mulC brainpool P k = mul P k) := by
  refine ⟨fun P Q => rfl, fun P => rfl, fun P k => ?_,
    fun P Q => rfl, fun P => rfl, fun P k => mulC_brainpool P k⟩
  cases P with
  | identity => rfl
  | affine x y => exact mulLoopC_b_invariant C b₁ b₂ (k + 1) _ _ k

/-! ## Claim C5: the ephemeral scalar is NOT guaranteed to lie in `[1, n)` -/

/-- Python's `int.from_bytes(bytes)` with the default big-endian order
(line 128). -/
def intFromBytes (bytes : List Nat) : Nat :=
  bytes.foldl (fun acc bi => acc * 256 + bi) 0

/-- The byte count drawn at line 128: `os.urandom(n.bit_length() - 1)` reads
`n.bit_length() - 1 = 191` bytes (not bits) for the configured 192-bit `n`. -/
def rndByteCount : Nat := 191

/-- The configured `n` has bit length 192, so `rndByteCount` matches
`n.bit_length() - 1` in the source. -/
theorem n_bit_length : 2 ^ 191 ≤ n ∧ n < 2 ^ 192 := by decide

/-- C5 is violated by the code: drawing `n.bit_length() - 1 = 191` random
BYTES yields `rnd = int.from_bytes(os.urandom(191))` in `[0, 2^1528)`.  The
all-zero output of the randomness source is a possible output of
`os.urandom` and gives `rnd = 0`, violating `0 < rnd`; the all-`0xff` output
gives `rnd ≥ n`, violating `rnd < n`.  (The code's own comment at line 127
says "get a random number 0 < rnd < n".) -/
theorem claimC5_bug :
    (List.replicate rndByteCount 0).length = rndByteCount ∧
    (∀ bi ∈ List.replicate rndByteCount (0 : ℕ), bi < 256) ∧
    intFromBytes (List.replicate rndByteCount 0) = 0 ∧
    ¬ (0 < intFromBytes (List.replicate rndByteCount 0)) ∧
    (∀ bi ∈ List.replicate rndByteCount (255 : ℕ), bi < 256) ∧
    n ≤ intFromBytes (List.replicate rndByteCount 255) := by
  refine ⟨by decide, by decide, by decide, by decide, by decide, by decide⟩

/-! ## Claim C7 groundwork: the cubic `X³ + a·X + b` has no root in `F`

The certificate is the standard one: `gcd(X^p − X, f) = 1` in `F[X]`.  We
compute `X^p mod f` by square-and-multiply in the quotient ring
`F[X]/(f)` (represented by coefficient triples of natural numbers reduced
modulo `p`) and then exhibit the Bézout-style division chain showing the
remainder polynomial and `f` are coprime. -/

/-- `-a mod p`, used to reduce `X³` modulo the monic cubic. -/
def na : ℕ := p - a

/-- `-b mod p`. -/
def nb : ℕ := p - b

/-- Multiplication of residue-classes `c0 + c1·X + c2·X²` modulo the cubic
`X³ + a·X + b` and modulo `p`, on natural-number coefficient triples. -/
def mulT : ℕ × ℕ × ℕ → ℕ × ℕ × ℕ → ℕ × ℕ × ℕ
  | (u0, u1, u2), (v0, v1, v2) =>
    ((u0 * v0 + nb * (u1 * v2 + u2 * v1)) % p,
     (u0 * v1 + u1 * v0 + na * (u1 * v2 + u2 * v1) + nb * (u2 * v2)) % p,
     (u0 * v2 + u1 * v1 + u2 * v0 + na * (u2 * v2)) % p)

/-- Fuelled exponentiation in the quotient ring. -/
def powT : ℕ → ℕ × ℕ × ℕ → ℕ → ℕ × ℕ × ℕ
  | 0, _, _ => (1 % p, 0, 0)
  | fuel + 1, bb, e =>
    if e = 0 then (1 % p, 0, 0)
    else
      let r := powT fuel (mulT bb bb) (e / 2)
      if e % 2 = 1 then mulT bb r else r

/-- Evaluation of a coefficient triple at a field element. -/
def evalT (t : ℕ × ℕ × ℕ) (r : F) : F :=
  (t.1 : F) + (t.2.1 : F) * r + (t.2.2 : F) * r ^ 2

theorem na_cast : ((na : ℕ) : F) = -(a : F) := by
  rw [na, Nat.cast_sub (by decide : a ≤ p), ZMod.natCast_self]
  ring

theorem nb_cast : ((nb : ℕ) : F) = -(b : F) := by
  rw [nb, Nat.cast_sub (by decide : b ≤ p), ZMod.natCast_self]
  ring

theorem evalT_mul (u v : ℕ × ℕ × ℕ) (r : F)
    (hr : r ^ 3 + (a : F) * r + (b : F) = 0) :
    evalT (mulT u v) r = evalT u r * evalT v r := by
  rcases u with ⟨u0, u1, u2⟩
  rcases v with ⟨v0, v1, v2⟩
  show (((u0 * v0 + nb * (u1 * v2 + u2 * v1)) % p : ℕ) : F) +
    (((u0 * v1 + u1 * v0 + na * (u1 * v2 + u2 * v1) + nb * (u2 * v2)) % p : ℕ) : F)
      * r +
    (((u0 * v2 + u1 * v1 + u2 * v0 + na * (u2 * v2)) % p : ℕ) : F) * r ^ 2 = _
  push_cast [ZMod.natCast_mod, na_cast, nb_cast]
  show _ = ((u0 : F) + (u1 : F) * r + (u2 : F) * r ^ 2) *
    ((v0 : F) + (v1 : F) * r + (v2 : F) * r ^ 2)
  linear_combination (-((u1 : F) * (v2 : F) + (u2 : F) * (v1 : F)) -
    (u2 : F) * (v2 : F) * r) * hr

theorem evalT_pow (r : F) (hr : r ^ 3 + (a : F) * r + (b : F) = 0) :
    ∀ fuel e bb, e < 2 ^ fuel → evalT (powT fuel bb e) r = (evalT bb r) ^ e := by
  intro fuel
  induction fuel with
  | zero =>
    intro e bb he
    interval_cases e
    show ((1 % p : ℕ) : F) + ((0 : ℕ) : F) * r + ((0 : ℕ) : F) * r ^ 2 = _
    push_cast [ZMod.natCast_mod]
    ring
  | succ f ih =>
    intro e bb he
    rcases Nat.eq_zero_or_pos e with rfl | hpos
    · show ((1 % p : ℕ) : F) + ((0 : ℕ) : F) * r + ((0 : ℕ) : F) * r ^ 2 = _
      push_cast [ZMod.natCast_mod]
      ring
    · have hlt : e / 2 < 2 ^ f := by
        have h2 : e < 2 ^ f * 2 := by
          simpa [Nat.pow_succ] using he
        omega
      have hrec := ih (e / 2) (mulT bb bb) hlt
      have hsq : evalT (mulT bb bb) r = (evalT bb r) ^ 2 := by
        rw [evalT_mul bb bb r hr]
        ring
      rcases Nat.mod_two_eq_zero_or_one e with hpar | hpar
      · have hne : ¬ e = 0 := by omega
        have hodd : ¬ e % 2 = 1 := by omega
        have heq2 : 2 * (e / 2) = e := by omega
        simp only [powT, if_neg hne, if_neg hodd]
        rw [hrec, hsq, ← pow_mul, heq2]
      · have hne : ¬ e = 0 := by omega
        simp only [powT, if_neg hne, if_pos hpar]
        rw [evalT_mul _ _ r hr, hrec, hsq, ← pow_mul]
        have heq2 : e = 2 * (e / 2) + 1 := by omega
        conv_rhs => rw [heq2]
        rw [pow_succ]
        ring

/-- Coefficients of `X^p mod (X³ + a·X + b)` over `F`, and the Euclidean
division certificates showing it shares no root with the cubic. -/
def tH0 : ℕ := 3645816011220449452111053952785547451702007395803931811471

def tH1 : ℕ := 4135379600313034035833705286513331368889574862082285479225

def tH2 : ℕ := 567926486342858395421973970779688160778556129724540690948

def tQ10 : ℕ := 4000380203421248027282675022057107196113365314680992003762

def tQ11 : ℕ := 1923316862319912926051032661038301097758094307104738913164

def tQ20 : ℕ := 3335974929192863621474377770472273040008321310054631532863

def tQ21 : ℕ := 2557323274469860165736685126501559306036116345038485888381

def tR10 : ℕ := 988281603053572535198096088769979520015163266061203546125

def tR11 : ℕ := 3178197254385605233657238832804839178944244133119186767111

def tR2 : ℕ := 2109053078498511163843412560653448782055334622950241709699

theorem natCast_F_eq (A B : ℕ) (h : A % p = B % p) : (A : F) = (B : F) := by
  rw [ZMod.natCast_eq_natCast_iff']
  exact h

set_option maxHeartbeats 4000000 in
theorem powT_Xp : powT 192 (0, 1, 0) p = (tH0, tH1, tH2) := by decide

theorem p_lt_two_pow : p < 2 ^ 192 := by decide

/-- The cubic `X³ + a·X + b` has no root in `F`: the curve has no point of
order two. -/
theorem cubic_no_root (r : F) : r ^ 3 + (a : F) * r + (b : F) ≠ 0 := by
  intro hr
  have he := evalT_pow r hr 192 p (0, 1, 0) p_lt_two_pow
  rw [powT_Xp] at he
  have hx : evalT (0, 1, 0) r = r := by
    show ((0 : ℕ) : F) + ((1 : ℕ) : F) * r + ((0 : ℕ) : F) * r ^ 2 = r
    push_cast
    ring
  rw [hx, ZMod.pow_card] at he
  have hgr : (tH2 : F) * r ^ 2 + ((tH1 : F) - 1) * r + (tH0 : F) = 0 := by
    have he' : (tH0 : F) + (tH1 : F) * r + (tH2 : F) * r ^ 2 = r := he
    linear_combination he'
  have hc3 : ((tQ11 * tH2 : ℕ) : F) = ((1 : ℕ) : F) :=
    natCast_F_eq _ _ (by decide)
  have hc2 : ((tQ11 * tH1 + tQ10 * tH2 : ℕ) : F) = ((tQ11 : ℕ) : F) :=
    natCast_F_eq _ _ (by decide)
  have hc1 : ((tQ11 * tH0 + tQ10 * tH1 + tR11 : ℕ) : F) = ((a + tQ10 : ℕ) : F) :=
    natCast_F_eq _ _ (by decide)
  have hc0 : ((tQ10 * tH0 + tR10 : ℕ) : F) = ((b : ℕ) : F) :=
    natCast_F_eq _ _ (by decide)
  push_cast at hc3 hc2 hc1 hc0
  have hr1 : (tR11 : F) * r + (tR10 : F) = 0 := by
    linear_combination hr - ((tQ11 : F) * r + (tQ10 : F)) * hgr +
      r ^ 3 * hc3 + r ^ 2 * hc2 + r * hc1 + hc0
  have hd2 : ((tQ21 * tR11 : ℕ) : F) = ((tH2 : ℕ) : F) :=
    natCast_F_eq _ _ (by decide)
  have hd1 : ((tQ21 * tR10 + tQ20 * tR11 + 1 : ℕ) : F) = ((tH1 : ℕ) : F) :=
    natCast_F_eq _ _ (by decide)
  have hd0 : ((tQ20 * tR10 + tR2 : ℕ) : F) = ((tH0 : ℕ) : F) :=
    natCast_F_eq _ _ (by decide)
  push_cast at hd2 hd1 hd0
  have hr2 : (tR2 : F) = 0 := by
    linear_combination hgr - ((tQ21 : F) * r + (tQ20 : F)) * hr1 +
      r ^ 2 * hd2 + r * hd1 + hd0
  have hne : (tR2 : F) ≠ 0 := by
    rw [Ne, ZMod.natCast_zmod_eq_zero_iff_dvd, Nat.dvd_iff_mod_eq_zero]
    decide
  exact hne hr2

instance : NeZero p := ⟨by decide⟩

/-- An injection of the rational points into `Option (F × Bool)`: the identity
goes to `none`, an affine point to its `x`-coordinate together with one bit
saying which of the two square roots its `y`-coordinate is. -/
def chi : W.Point → Option (F × Bool)
  | .zero => none
  | @WeierstrassCurve.Affine.Point.some _ _ _ x y _ =>
    some (x, decide ((-y).val < y.val))

theorem chi_injective : Function.Injective chi := by
  intro A B hAB
  cases A with
  | zero =>
    cases B with
    | zero => rfl
    | some h₂ => simp [chi] at hAB
  | some h₁ =>
    rename_i x₁ y₁
    cases B with
    | zero => simp [chi] at hAB
    | some h₂ =>
      rename_i x₂ y₂
      simp only [chi, Option.some.injEq, Prod.mk.injEq] at hAB
      obtain ⟨hx, hb⟩ := hAB
      subst hx
      rcases WeierstrassCurve.Affine.Y_eq_of_X_eq h₁.1 h₂.1 rfl with hy | hy
      · subst hy
        rfl
      · rw [negY_eq] at hy
        by_cases hyy : y₁ = y₂
        · subst hyy
          rfl
        · exfalso
          subst hy
          rw [neg_neg] at hb
          have hvne : (-y₂).val ≠ y₂.val := by
            intro hv
            exact hyy (ZMod.val_injective p hv)
          rw [decide_eq_decide] at hb
          omega

instance : Finite W.Point := Finite.of_injective chi chi_injective

theorem point_card_le : Nat.card W.Point ≤ 2 * p + 1 := by
  have h1 := Nat.card_le_card_of_injective chi chi_injective
  have h2 : Nat.card (Option (F × Bool)) = 2 * p + 1 := by
    rw [Nat.card_eq_fintype_card, Fintype.card_option, Fintype.card_prod,
      ZMod.card, Fintype.card_bool]
    ring
  omega

set_option maxHeartbeats 10000000 in
/-- The scalar multiplication of the generator by the group order `n` returns
the identity (a direct kernel computation through the embedded code). -/
theorem mulGn : mul Gpt n = some .identity := by decide

theorem n_dvd_card : n ∣ Nat.card W.Point := by
  obtain ⟨A, hA⟩ := rep_of_valid (show Valid Gpt by decide)
  obtain ⟨S, hS, hrS⟩ := mul_rep hA n
  rw [mulGn] at hS
  have hSid : S = .identity := (Option.some.inj hS.symm)
  subst hSid
  have hnA : n • A = 0 := Rep.ident_elim hrS
  have hord : addOrderOf A ∣ n := addOrderOf_dvd_of_nsmul_eq_zero hnA
  have hAne : A ≠ 0 := by
    obtain ⟨_, _, _, _, hns, hAe⟩ :=
      Rep.affine_elim (show Rep (.affine Gx Gy) A from hA)
    rw [hAe]
    exact WeierstrassCurve.Affine.Point.some_ne_zero hns
  rcases (Nat.Prime.eq_one_or_self_of_dvd n_prime _ hord) with h1 | hn
  · exact absurd (AddMonoid.addOrderOf_eq_one_iff.mp h1) hAne
  · rw [← hn]
    exact addOrderOf_dvd_natCard A

theorem point_card_eq_n : Nat.card W.Point = n := by
  obtain ⟨m, hm⟩ := n_dvd_card
  have hle := point_card_le
  have hpos : 0 < Nat.card W.Point := Nat.card_pos
  have hnm : n * m ≤ 2 * p + 1 := hm ▸ hle
  have hmpos : 0 < m := by
    rcases Nat.eq_zero_or_pos m with rfl | h
    · rw [hm, Nat.mul_zero] at hpos
      omega
    · exact h
  have hm2 : m = 1 ∨ m = 2 := by
    have hnval : n = 4781668983906166242955001894269038308119863659119834868929 := by
      decide
    have hpval : (p : ℕ) =
        4781668983906166242955001894344923773259119655253013193367 := by
      decide
    rw [hnval, hpval] at hnm
    rcases Nat.lt_or_ge m 3 with h3 | h3
    · omega
    · exfalso
      have hge : 4781668983906166242955001894269038308119863659119834868929 * 3 ≤
          4781668983906166242955001894269038308119863659119834868929 * m :=
        Nat.mul_le_mul_left _ h3
      omega
  rcases hm2 with rfl | rfl
  · omega
  · exfalso
    letI : Fintype W.Point := Fintype.ofFinite _
    rw [Nat.card_eq_fintype_card] at hm
    have h2dvd : (2 : ℕ) ∣ Fintype.card W.Point := ⟨n, by omega⟩
    haveI : Fact (Nat.Prime 2) := ⟨Nat.prime_two⟩
    obtain ⟨A, hA2⟩ := exists_prime_addOrderOf_dvd_card 2 h2dvd
    have hA0 : A ≠ 0 := by
      intro h0
      rw [h0, addOrderOf_zero] at hA2
      omega
    have hAA : A + A = 0 := by
      have h := addOrderOf_nsmul_eq_zero A
      rw [hA2, two_nsmul] at h
      exact h
    cases A with
    | zero => exact hA0 rfl
    | some hns =>
      rename_i x y
      by_cases hy : y = W.negY x y
      · rw [negY_eq] at hy
        have h2y : (2 : F) * y = 0 := by linear_combination hy
        have hy0 : y = 0 := by
          rcases mul_eq_zero.mp h2y with h | h
          · exact absurd h F_two_ne_zero
          · exact h
        subst hy0
        have heq := (W.equation_iff x 0).mp hns.1
        rw [show W.a₁ = 0 from rfl, show W.a₂ = 0 from rfl,
          show W.a₃ = 0 from rfl] at heq
        apply cubic_no_root x
        show x ^ 3 + W.a₄ * x + W.a₆ = 0
        linear_combination -heq
      · rw [negY_eq] at hy
        have hsum := @WeierstrassCurve.Affine.Point.add_self_of_Y_ne
          F _ W x y hns (by rw [negY_eq]; exact hy)
        rw [hAA] at hsum
        exact WeierstrassCurve.Affine.Point.some_ne_zero _ hsum.symm

theorem n_nsmul_eq_zero (A : W.Point) : n • A = 0 := by
  letI : Fintype W.Point := Fintype.ofFinite _
  have h : Fintype.card W.Point • A = 0 := card_nsmul_eq_zero
  rw [← Nat.card_eq_fintype_card, point_card_eq_n] at h
  exact h

/-- C7: for every valid point `P` and scalars `k1, k2 ∈ [0, n)`,
`mul(P, (k1 + k2) mod n) == add(mul(P, k1), mul(P, k2))`.  This uses the fact
that the configured curve group has exactly `n` rational points (cofactor 1),
proved above from the certified order of `G`, the Hasse-style counting bound
`|E| ≤ 2p + 1 < 3n`, and the absence of 2-torsion. -/
theorem claimC7 (P : EPoint) (h : Valid P) (k1 k2 : ℕ) (_h1 : k1 < n)
    (_h2 : k2 < n) :
    mul P ((k1 + k2) % n) =
      Option.bind (mul P k1) fun R1 =>
        Option.bind (mul P k2) fun R2 => add R1 R2 := by
  obtain ⟨A, hA⟩ := rep_of_valid h
  obtain ⟨S1, hS1, hr1⟩ := mul_rep hA k1
  obtain ⟨S2, hS2, hr2⟩ := mul_rep hA k2
  obtain ⟨T, hT, hrT⟩ := add_rep hr1 hr2
  obtain ⟨S, hS, hrS⟩ := mul_rep hA ((k1 + k2) % n)
  rw [hS, hS1, Option.some_bind, hS2, Option.some_bind, hT]
  have hmod : ((k1 + k2) % n) • A = k1 • A + k2 • A := by
    rw [← add_nsmul]
    have hsplit : k1 + k2 = n * ((k1 + k2) / n) + (k1 + k2) % n :=
      (Nat.div_add_mod _ _).symm
    conv_rhs => rw [hsplit]
    rw [add_nsmul, mul_nsmul A n ((k1 + k2) / n), n_nsmul_eq_zero,
      nsmul_zero, zero_add]
  rw [← hmod] at hrT
  rw [Rep.inj hrS hrT]

/-- Witness for C7 at the generator with `k1 = 1`, `k2 = 2`. -/
theorem claimC7_witness :
    Valid Gpt ∧ (1 < n ∧ 2 < n) ∧
      mul Gpt ((1 + 2) % n) =
        Option.bind (mul Gpt 1) fun R1 =>
          Option.bind (mul Gpt 2) fun R2 => add R1 R2 :=
  ⟨by decide, ⟨by decide, by decide⟩,
    claimC7 Gpt (by decide) 1 2 (by decide) (by decide)⟩

end ECCDemo
